import Mathlib

/-!
Verification of the itsy document persistence engine: a shallow embedding of
the schema/field model, the optimistic-concurrency save path, the mutex lease,
revision snapshots, cascade/restrict delete resolution, the cached-reference
sync protocol, the serial-identifier allocator and the query-specification
parser, together with theorems settling the frozen claims about them.

Store values are modelled by an explicit value type; Python `None` stored in a
document is `Val.null`, while an in-memory field mapping represents a null
value by absence of the key (the engine's accessors treat both identically).
Nested Mongo sub-documents are flattened to dotted keys, which is the form in
which every query of the engine addresses them.
-/

namespace Itsy

/-- A store-level value: null, integer, string, boolean or timestamp
(timestamps are modelled as integer seconds). -/
inductive Val where
  | null : Val
  | vInt (n : Int) : Val
  | vStr (s : String) : Val
  | vBool (b : Bool) : Val
  | vTime (t : Int) : Val
  deriving DecidableEq, Repr

/-- A stored document: an association list from store-level field names to
values (Mongo sub-documents appear flattened under dotted keys). -/
abbrev DbDoc := List (String × Val)

/-- Lookup of a key in a stored document (`data.get(key)` when the caller
distinguishes absence, with explicit `Val.null` for stored nulls). -/
def dbGet : DbDoc → String → Option Val
  | [], _ => none
  | p :: rest, k => if p.1 = k then some p.2 else dbGet rest k

/-- Python `data.get(key)` as used by the engine: a stored null and an absent
key are both reported as `none`. -/
def pyGet (d : DbDoc) (k : String) : Option Val :=
  match dbGet d k with
  | some Val.null => none
  | some v => some v
  | none => none

/-- Set a key in a stored document, replacing an existing binding
(`document[key] = value`, and the effect of a Mongo `$set` entry). -/
def dbSet : DbDoc → String → Val → DbDoc
  | [], k, v => [(k, v)]
  | p :: rest, k, v => if p.1 = k then (k, v) :: rest else p :: dbSet rest k v

/-- Remove a key from a stored document (`del document[key]`). -/
def dbErase (d : DbDoc) (k : String) : DbDoc :=
  d.filter (fun p => p.1 ≠ k)

/-- Apply a `$set` map to a stored document, entry by entry. -/
def applySet (d : DbDoc) (s : DbDoc) : DbDoc :=
  s.foldl (fun acc p => dbSet acc p.1 p.2) d

/-- Python truthiness of a store value, as used by
`if document.get(field.db_name)` in the snapshot builder. -/
def Val.truthy : Val → Bool
  | Val.null => false
  | Val.vInt n => n ≠ 0
  | Val.vStr s => s ≠ ""
  | Val.vBool b => b
  | Val.vTime _ => true

/-- String rendering of a value, as Python string formatting produces for the
`"{id}.{version}"` revision keys. -/
def Val.repr : Val → String
  | Val.null => "None"
  | Val.vInt n => toString n
  | Val.vStr s => s
  | Val.vBool b => if b then "True" else "False"
  | Val.vTime t => toString t

/-- The in-memory value mapping of a document instance (`self._values`),
keyed by logical field name; a null value is represented by absence. -/
abbrev Values := List (String × Val)

/-- Read a field's in-memory value (`self._values.get(field)`). -/
def getVal : Values → String → Option Val
  | [], _ => none
  | p :: rest, name => if p.1 = name then some p.2 else getVal rest name

/-- Write back a field's in-memory value (`self._values[field] = value`);
writing a null erases the binding. -/
def setVal : Values → String → Option Val → Values
  | vs, name, none => vs.filter (fun p => p.1 ≠ name)
  | [], name, some v => [(name, v)]
  | p :: rest, name, some v =>
      if p.1 = name then (name, v) :: rest else p :: setVal rest name (some v)

/-- A field descriptor: the flags of `itsy.fields.base.Field` together with
the variant-supplied behaviours (pre-save hook, variant validation and the
store/revision encoders), given as explicit functions. The pre-save hook and
variant validation receive the document's current value mapping, mirroring the
`document` argument of the Python methods. -/
structure FieldSpec where
  name : String
  db_name : String
  required : Bool
  virtual : Bool
  revisable : Bool
  noPreSave : Bool
  preSave : Option Val → Values → Option Val
  validate : Val → Values → Bool
  toStore : Val → Val
  fromStore : Val → Val
  toRevision : Val → Val

/-- The base `Field.pre_save`: a null value is replaced by the field's default
(when one is configured), any other value passes through. -/
def basePreSave (default : Option Val) (value : Option Val) (_vs : Values) : Option Val :=
  match value with
  | none => default
  | some v => some v

/-- `Field._validate`: a null value on a required field fails; the
variant-specific `validate` runs only on non-null values. -/
def validateField (f : FieldSpec) (value : Option Val) (vs : Values) : Bool :=
  match value with
  | none => !f.required
  | some v => f.validate v vs

/-- A document schema: the ordered field catalog of `DocumentMetadata`. -/
abbrev Schema := List FieldSpec

/-- Find a field by its store-level name
(`FieldMetadata.get_field_by_db_name`). -/
def getFieldByDbName (schema : Schema) (db : String) : Option FieldSpec :=
  schema.find? (fun f => f.db_name = db)

/-- Errors surfaced by the save path.  `keyError` is Python's KeyError, raised
by `_lock` when it indexes a missing `_last_update`/`_last_author` entry of
the lease-fetched document while building the revision record. -/
inductive SaveErr where
  | validationError : SaveErr
  | mutexNotAcquired : SaveErr
  | missingVersionMetadata : SaveErr
  | doesNotExist : SaveErr
  | keyError : SaveErr
  deriving DecidableEq, Repr

/-- The store-level encoding of a prepared field value: a null value is kept
as an explicit stored null (`document[fname] = None`), any other value passes
through the field's `to_store`. -/
def encodeField (f : FieldSpec) : Option Val → Val
  | some v => f.toStore v
  | none => Val.null

/-- The value a field contributes at save time: its pre-save hook applied to
its current value (suppressed for `no_pre_save` fields). -/
def prepValue (f : FieldSpec) (vs : Values) : Option Val :=
  if f.noPreSave then getVal vs f.name else f.preSave (getVal vs f.name) vs

/-- `BaseDocument._db_prepare`: walk the schema in order, skip virtual
fields, run each remaining field's pre-save hook (unless suppressed), validate
the result, write it back into the value mapping and emit the store-level
entry.  A validation failure aborts the whole preparation. -/
def dbPrepare : Schema → Values → Except SaveErr (DbDoc × Values)
  | [], vs => Except.ok ([], vs)
  | f :: rest, vs =>
      if f.virtual then dbPrepare rest vs
      else if validateField f (prepValue f vs) vs then
        match dbPrepare rest (setVal vs f.name (prepValue f vs)) with
        | Except.ok (doc, vs') =>
            Except.ok ((f.db_name, encodeField f (prepValue f vs)) :: doc, vs')
        | Except.error e => Except.error e
      else Except.error SaveErr.validationError

/-- A revision record, as written by `Document._lock` into the
`<collection>.revisions` collection. -/
structure RevisionRec where
  rid : String
  doc : Val
  version : Int
  created : Val
  author : Val
  document : DbDoc
  deriving DecidableEq, Repr

/-- The document store visible to a single document class: its main
collection and its revisions collection. -/
structure Store where
  docs : List DbDoc
  revisions : List RevisionRec
  deriving DecidableEq, Repr

/-- An in-memory `Document` instance: its value mapping and its version
counter (`None` before the first insert). -/
structure MemDoc where
  values : Values
  version : Option Int
  deriving DecidableEq, Repr

/-- The lease-acquisition match predicate of `Document._lock`'s
`find_and_modify`: the document with the given identifier whose stored lease
timestamp is strictly before `now` and whose stored version equals the
caller's in-memory version. -/
def lockMatch (pkDb : Val) (version : Int) (now : Int) (d : DbDoc) : Bool :=
  dbGet d "_id" = some pkDb &&
  (match dbGet d "_mutex" with
   | some (Val.vTime t) => decide (t < now)
   | _ => false) &&
  dbGet d "_version" = some (Val.vInt version)

/-- Replace the first list element satisfying the predicate (the effect of a
Mongo single-document modify). -/
def replaceFirst (p : α → Bool) (g : α → α) : List α → List α
  | [] => []
  | x :: xs => if p x then g x :: xs else x :: replaceFirst p g xs

/-- `find_and_modify` for lease acquisition: return the first matching
document in its pre-update state and set its lease timestamp to
`now + 30` seconds; no matching document leaves the collection unchanged. -/
def findAndModifyLock (docs : List DbDoc) (pkDb : Val) (version : Int)
    (now : Int) : Option DbDoc × List DbDoc :=
  match docs.find? (lockMatch pkDb version now) with
  | none => (none, docs)
  | some d =>
      (some d,
       replaceFirst (lockMatch pkDb version now)
         (fun d0 => dbSet d0 "_mutex" (Val.vTime (now + 30))) docs)

/-- The snapshot of a lease-fetched document: exactly the revisable fields
whose stored value is present and truthy, each passed through the field's
revision encoding (`if field.revisable and document.get(field.db_name)`). -/
def revisionSnapshot (schema : Schema) (d : DbDoc) : DbDoc :=
  (schema.filter
      (fun f => f.revisable &&
        (match pyGet d f.db_name with
         | some v => v.truthy
         | none => false))).map
    (fun f =>
      (f.db_name,
       match pyGet d f.db_name with
       | some v => f.toRevision v
       | none => Val.null))

/-- The `"{id}.{version}"` key of a revision record. -/
def revisionKey (pk : Val) (version : Int) : String :=
  pk.repr ++ "." ++ toString version

/-- Upsert of a revision record by its key (`revisions.update(..,
upsert=True)`): replace the record with this key when it exists, insert it
otherwise. -/
def upsertRevision : List RevisionRec → RevisionRec → List RevisionRec
  | [], r => [r]
  | x :: xs, r => if x.rid = r.rid then r :: xs else x :: upsertRevision xs r

/-- The revision record written under the lease for the pre-update version,
holding the given creation metadata (the values `_lock` reads out of the
lease-fetched document's `_last_update`/`_last_author` entries) and the
snapshot of the document's revisable fields. -/
def lockRevision (schema : Schema) (pk pkDb : Val) (version : Int) (d : DbDoc)
    (created author : Val) : RevisionRec :=
  { rid := revisionKey pk version
    doc := pkDb
    version := version
    created := created
    author := author
    document := revisionSnapshot schema d }

/-- `Document._lock`: acquire the editorial mutex via the conditional
`find_and_modify` and, when a snapshot is requested on a revisable schema,
upsert a revision record keyed by the pre-update version and holding the
truthy revisable fields of the lease-fetched state, with creation metadata
read by indexing the lease-fetched document's `_last_update` and
`_last_author` entries — a missing entry raises KeyError, after the lease
timestamp has already been written.  Fails with `MutexNotAcquired` when no
document matches, leaving the store unchanged. -/
def lockDoc (schema : Schema) (revisable : Bool) (snapshot : Bool)
    (st : Store) (pk : Val) (pkDb : Val) (version : Int) (now : Int) :
    Store × Except SaveErr DbDoc :=
  match findAndModifyLock st.docs pkDb version now with
  | (none, _) => (st, Except.error SaveErr.mutexNotAcquired)
  | (some d, docs') =>
      if snapshot && revisable then
        match dbGet d "_last_update", dbGet d "_last_author" with
        | some created, some author =>
            ({ docs := docs',
               revisions := upsertRevision st.revisions
                 (lockRevision schema pk pkDb version d created author) },
             Except.ok d)
        | _, _ =>
            ({ docs := docs', revisions := st.revisions },
             Except.error SaveErr.keyError)
      else
        ({ docs := docs', revisions := st.revisions }, Except.ok d)

/-- The effect of `{ $set : s, $inc : { _version : 1 } }` on one stored
document. -/
def commitTransform (s : DbDoc) (d : DbDoc) : DbDoc :=
  let d' := applySet d s
  dbSet d' "_version"
    (Val.vInt
      ((match dbGet d' "_version" with
        | some (Val.vInt n) => n
        | _ => 0) + 1))

/-- Apply `{ $set : s, $inc : { _version : 1 } }` to the first document whose
identifier matches, as the update-path commit does. -/
def commitUpdate (docs : List DbDoc) (pkDb : Val) (s : DbDoc) : List DbDoc :=
  replaceFirst (fun d => dbGet d "_id" = some pkDb) (commitTransform s) docs

/-- The result of `Document._save_to_db`: a silent no-op, a failure raised
before any write, an insert, or an update carrying the post-save in-memory
document, the lease-fetched pre-update state and the applied `$set` map. -/
inductive SaveResult where
  | noop : SaveResult
  | failed (e : SaveErr) : SaveResult
  | inserted (mem : MemDoc) : SaveResult
  | updated (mem : MemDoc) (oldDoc : DbDoc) (setDoc : DbDoc) : SaveResult
  deriving DecidableEq, Repr

/-- The `$set` map applied by an update-path save, when one happened. -/
def SaveResult.setMap : SaveResult → Option DbDoc
  | SaveResult.updated _ _ s => some s
  | _ => none

/-- The lease-fetched pre-update state of an update-path save. -/
def SaveResult.leaseFetched : SaveResult → Option DbDoc
  | SaveResult.updated _ o _ => some o
  | _ => none

/-- The designated primary-key field of a schema (the field whose store name
is the canonical identity key `_id`). -/
def pkField (schema : Schema) : Option FieldSpec :=
  schema.find? (fun f => f.db_name = "_id")

/-- `Document._pk_for_db`: the primary-key value encoded through the
primary-key field's `to_store`. -/
def pkForDb (schema : Schema) (vs : Values) : Val :=
  match pkField schema with
  | some f =>
      (match getVal vs f.name with
       | some v => f.toStore v
       | none => Val.null)
  | none => Val.null

/-- The raw in-memory primary-key value (`self.pk`). -/
def memPk (schema : Schema) (vs : Values) : Option Val :=
  match pkField schema with
  | some f => getVal vs f.name
  | none => none

/-- `Document._save_to_db`.  A document with no pending values and a set
identifier is a no-op.  Otherwise the document is prepared and validated; on
the update path (a version is present) the lease is acquired (optionally
snapshotting), and the prepared fields are committed in one update as a
`$set` map — together with a released lease, the update timestamp and the
author — plus a `$inc` of the version; the in-memory version is then
incremented.  On the insert path the prepared document is inserted with
version 1 and an already-expired lease. -/
def saveToDb (schema : Schema) (revisable : Bool) (snapshot : Bool)
    (author : Val) (now : Int) (mem : MemDoc) (st : Store) :
    Store × SaveResult :=
  if mem.values.isEmpty && (memPk schema mem.values).isSome then
    (st, SaveResult.noop)
  else
    match dbPrepare schema mem.values with
    | Except.error e => (st, SaveResult.failed e)
    | Except.ok (docPrep, vs') =>
        if docPrep.isEmpty then (st, SaveResult.noop)
        else
          match mem.version with
          | some v =>
              match lockDoc schema revisable snapshot st
                  ((memPk schema vs').getD Val.null) (pkForDb schema vs') v now with
              | (st1, Except.error e) => (st1, SaveResult.failed e)
              | (st1, Except.ok oldDoc) =>
                  ({ docs :=
                       commitUpdate st1.docs (pkForDb schema vs')
                         (dbSet (dbSet (dbSet (dbErase docPrep "_id")
                           "_mutex" (Val.vTime (now - 3600)))
                           "_last_update" (Val.vTime now))
                           "_last_author" author)
                     revisions := st1.revisions },
                   SaveResult.updated { values := vs', version := some (v + 1) }
                     oldDoc
                     (dbSet (dbSet (dbSet (dbErase docPrep "_id")
                       "_mutex" (Val.vTime (now - 3600)))
                       "_last_update" (Val.vTime now))
                       "_last_author" author))
          | none =>
              ({ docs :=
                   st.docs ++
                     [dbSet (dbSet (dbSet (dbSet docPrep
                       "_version" (Val.vInt 1))
                       "_mutex" (Val.vTime (now - 3600)))
                       "_last_update" (Val.vTime now))
                       "_last_author" author]
                 revisions := st.revisions },
               SaveResult.inserted { values := vs', version := some 1 })

/-- One step of `_set_from_db`'s loop over the stored entries: resolve the
store key to a field, skip stored nulls, decode and record the value. -/
def readStep (schema : Schema) (acc : Values) (p : String × Val) : Values :=
  match getFieldByDbName schema p.1 with
  | some f =>
      if p.2 = Val.null then acc
      else setVal acc f.name (some (f.fromStore p.2))
  | none => acc

/-- `Document._set_from_db`: rebuild the in-memory value mapping from a
stored document — the version metadata must be present, stored nulls are
skipped and each remaining value passes through its field's `from_store`
(keys that resolve to no field are ignored). -/
def setFromDb (schema : Schema) (d : DbDoc) : Except SaveErr MemDoc :=
  match dbGet d "_version" with
  | some (Val.vInt v) =>
      Except.ok { values := d.foldl (readStep schema) [], version := some v }
  | _ => Except.error SaveErr.missingVersionMetadata

/-- `Document.refresh`: re-read the document from the store by identifier. -/
def refresh (schema : Schema) (st : Store) (pkDb : Val) : Except SaveErr MemDoc :=
  match st.docs.find? (fun d => dbGet d "_id" = some pkDb) with
  | some d => setFromDb schema d
  | none => Except.error SaveErr.doesNotExist

/-- `Document._modified_fields`: the names of the schema fields whose
store-level value differs between the pre-update document and the applied
`$set` map. -/
def modifiedFields (schema : Schema) (oldDoc setDoc : DbDoc) : List String :=
  (schema.filter (fun f => pyGet setDoc f.db_name ≠ pyGet oldDoc f.db_name)).map
    (fun f => f.name)

/-! ### Cached-reference synchronization (`CachedReferenceDocument.sync`) -/

/-- A source document handed to `sync`: its primary key, its version counter
(`None` when the source was never saved) and its field values. -/
structure SrcDoc where
  pk : Val
  version : Option Int
  fields : Values

/-- A live cached-reference instance: the mirrored source identity and
version plus the cached copies of the declared fields. -/
structure CachedRef where
  id : Option Val
  version : Option Int
  values : Values

/-- A field of a specialized cached-reference document: either a plain copy
of a source field or a `ReferencedDynamicField` evaluated against the source
document. -/
inductive CRField where
  | plain (name : String) : CRField
  | dynamic (name : String) (function : SrcDoc → Val) : CRField

/-- The name of a cached-reference field. -/
def CRField.fname : CRField → String
  | CRField.plain n => n
  | CRField.dynamic n _ => n

/-- The error raised by `sync` on a referenced-document identifier
mismatch. -/
inductive SyncErr where
  | valueError : SyncErr
  deriving DecidableEq, Repr

/-- Python 2 `document._version < self.version` where the left side may be
`None`: `None` compares below every integer. -/
def py2ltVersion (a : Option Int) (b : Int) : Bool :=
  match a with
  | none => true
  | some n => decide (n < b)

/-- `CachedReferenceDocument.sync` with a provided source document: an
identifier mismatch raises `ValueError`; a source version below the stored
cached version is a silent no-op; otherwise every cached field (but the
`id`/`version` bookkeeping pair) is re-derived from the source — dynamic
fields through their getter — and the cached identity and version are set to
the source's.  The pre-mutation state is returned alongside the optional
error, so an error provably leaves the cached reference unchanged. -/
def syncRef (schema : List CRField) (ref : CachedRef) (doc : SrcDoc) :
    CachedRef × Option SyncErr :=
  if (match ref.id with
      | some i => decide (doc.pk ≠ i)
      | none => false) then
    (ref, some SyncErr.valueError)
  else if (match ref.version with
           | some v => py2ltVersion doc.version v
           | none => false) then
    (ref, none)
  else
    let values' :=
      schema.foldl
        (fun acc f =>
          if f.fname = "id" || f.fname = "version" then acc
          else
            match f with
            | CRField.plain n => setVal acc n (getVal doc.fields n)
            | CRField.dynamic n g => setVal acc n (some (g doc)))
        ref.values
    ({ id := some doc.pk, version := doc.version, values := values' }, none)

/-! ### Serial identifier allocation (`SerialField.pre_save`) -/

/-- A value held by a `SerialField` slot: either the explicit
`SerialField.ManualValue` wrapper or any other raw value. -/
inductive SerialValue where
  | manualValue (pk : Int) : SerialValue
  | rawValue (v : Val) : SerialValue
  deriving DecidableEq, Repr

/-- The error raised when a bare value is assigned to a `SerialField` on
insert. -/
inductive SerialErr where
  | valueError : SerialErr
  deriving DecidableEq, Repr

/-- `SerialField.pre_save`: on the update path the value passes through
unchanged; on the insert path a non-null value must be a
`SerialField.ManualValue` (whose wrapped integer is used) or `ValueError` is
raised, and a null value allocates a fresh identifier through one atomic
increment-and-fetch (`find_and_modify` with `$inc`, `new=True`,
`upsert=True`) on the counters collection, modelled by its counter slot. -/
def serialPreSave (update : Bool) (value : Option SerialValue)
    (counter : Option Int) :
    Option Int × Except SerialErr (Option SerialValue) :=
  if update then
    (counter, Except.ok value)
  else
    match value with
    | some (SerialValue.manualValue pk) =>
        (counter, Except.ok (some (SerialValue.rawValue (Val.vInt pk))))
    | some (SerialValue.rawValue _) =>
        (counter, Except.error SerialErr.valueError)
    | none =>
        let next := counter.getD 0 + 1
        (some next, Except.ok (some (SerialValue.rawValue (Val.vInt next))))

/-! ### Query-specification compilation (`DbResultSet._parse_spec` and
`FieldMetadata.resolve_subfield_hierarchy`) -/

/-- The field-metadata hierarchy seen by path resolution: `leaf` is the
absence of subfield metadata (`get_subfield_metadata()` returning `None`),
while `nil`/`cons` form a metadata table mapping each logical field name to
its store name and its own subfield metadata. -/
inductive FieldMeta where
  | leaf : FieldMeta
  | nil : FieldMeta
  | cons (name dbName : String) (sub : FieldMeta) (rest : FieldMeta) : FieldMeta
  deriving DecidableEq, Repr

/-- `FieldMetadata.get_field_by_name` restricted to what resolution consumes:
the store name and the subfield metadata of the named field. -/
def FieldMeta.lookupF : FieldMeta → String → Option (String × FieldMeta)
  | FieldMeta.leaf, _ => none
  | FieldMeta.nil, _ => none
  | FieldMeta.cons n db sub rest, x =>
      if n = x then some (db, sub) else rest.lookupF x

/-- All logical field names occurring anywhere in a metadata hierarchy. -/
def FieldMeta.names : FieldMeta → List String
  | FieldMeta.leaf => []
  | FieldMeta.nil => []
  | FieldMeta.cons n _ sub rest => n :: (sub.names ++ rest.names)

/-- The error of a failed field lookup during resolution (the `KeyError` out
of `self.fields[name]`, the spec's `UnknownField`). -/
inductive QueryErr where
  | unknownField : QueryErr
  deriving DecidableEq, Repr

/-- `FieldMetadata.resolve_subfield_hierarchy`: walk the metadata
field-by-field converting each path element to its store name; once the walk
crosses a field with no subfield metadata the remaining elements are passed
through unresolved; a name missing from the metadata still being walked
fails. -/
def resolveSubfieldHierarchy : FieldMeta → List String → Except QueryErr (List String)
  | _, [] => Except.ok []
  | FieldMeta.leaf, e :: rest =>
      (resolveSubfieldHierarchy FieldMeta.leaf rest).map (fun l => e :: l)
  | m, e :: rest =>
      match m.lookupF e with
      | none => Except.error QueryErr.unknownField
      | some (db, sub) => (resolveSubfieldHierarchy sub rest).map (fun l => db :: l)

/-- The operator suffixes recognized by `DbResultSet._parse_spec`. -/
def queryOperators : List String :=
  ["ne", "gt", "gte", "lt", "lte", "in", "nin", "mod", "all", "size", "exists", "not"]

/-- Python `key.split('__')` over the characters of the key (scanning left
to right for the two-character separator). -/
def splitUS : List Char → List Char → List String
  | [], acc => [String.mk acc]
  | '_' :: '_' :: rest, acc => String.mk acc :: splitUS rest []
  | c :: rest, acc => splitUS rest (acc ++ [c])

/-- `key.split('__')`. -/
def pySplit (key : String) : List String :=
  splitUS key.data []

/-- Split a query key on the path separator and pop the trailing element when
it is a recognized operator. -/
def splitKey (key : String) : List String × Option String :=
  let elements := pySplit key
  match elements.getLast? with
  | some last =>
      if queryOperators.contains last then (elements.dropLast, some last)
      else (elements, none)
  | none => (elements, none)

/-- A compiled criterion value: direct equality or an operator-wrapped
predicate (`{ "$op" : value }`). -/
inductive QVal where
  | eqv (v : Val) : QVal
  | opv (op : String) (v : Val) : QVal
  deriving DecidableEq, Repr

/-- Compile a single query key of `DbResultSet._parse_spec`: strip a
trailing operator, resolve the remaining path through the metadata and emit
the dotted store key. -/
def parseSpecKey (meta : FieldMeta) (key : String) : Except QueryErr (String × Option String) :=
  let p := splitKey key
  (resolveSubfieldHierarchy meta p.1).map
    (fun parts => (String.intercalate "." parts, p.2))

/-- `DbResultSet._parse_spec`: compile every criterion of a query
specification, failing as soon as one path fails to resolve. -/
def parseSpec (meta : FieldMeta) : List (String × Val) → Except QueryErr (List (String × QVal))
  | [] => Except.ok []
  | (key, v) :: rest =>
      match parseSpecKey meta key with
      | Except.error e => Except.error e
      | Except.ok (path, op) =>
          (parseSpec meta rest).map
            (fun l =>
              (path,
               match op with
               | some o => QVal.opv o v
               | none => QVal.eqv v) :: l)

/-! ### Cascade/Restrict delete resolution (`Document._check_delete_restrict`
and `Document.delete`) -/

/-- A reference's delete policy. -/
inductive Policy where
  | cascade : Policy
  | restrict : Policy
  deriving DecidableEq, Repr

/-- A reverse-reference entry `(referencing class, store-level field path,
delete policy)` of a schema's `reverse_references` list. -/
structure RRef where
  refClass : String
  fieldPath : String
  onDelete : Policy
  deriving DecidableEq, Repr

/-- The reverse-reference catalogs of every document class. -/
abbrev RRegistry := List (String × List RRef)

/-- The reverse-reference list registered for a class. -/
def regRefs (reg : RRegistry) (cls : String) : List RRef :=
  match reg.find? (fun p => p.1 = cls) with
  | some p => p.2
  | none => []

/-- A stored document tagged with its document class. -/
structure GDoc where
  cls : String
  data : DbDoc
  deriving DecidableEq, Repr

/-- The store seen by the delete resolver: all documents of all classes,
revision entries `(class, document id)` and search-index entries
`(class, document id)`. -/
structure GStore where
  docs : List GDoc
  revisions : List (String × Val)
  searchIds : List (String × Val)
  deriving DecidableEq, Repr

/-- `doc_class.find(**{ field_path : pk })`: the documents of the given class
whose reference field path holds the identifier. -/
def findRefs (st : GStore) (cls : String) (path : String) (pk : Val) : List GDoc :=
  st.docs.filter (fun d => d.cls = cls && dbGet d.data path = some pk)

/-- Errors of the delete path: a Restrict-policy reference with a live
referencing document (`DeleteRestrictedByReference`), exhaustion of the
modelling recursion fuel, or a failed lease acquisition. -/
inductive DelErr where
  | restricted : DelErr
  | outOfFuel : DelErr
  | mutexNotAcquired : DelErr
  deriving DecidableEq, Repr

/-- The identifier of a stored document. -/
def gdPk (d : GDoc) : Val :=
  (dbGet d.data "_id").getD Val.null

/-- Recursively validate every document matched through a cascade edge,
collecting the matches in order; an error anywhere propagates. -/
def checkEach (recur : String → Val → Except DelErr (List GDoc)) :
    List GDoc → Except DelErr (List GDoc)
  | [] => Except.ok []
  | d :: ds =>
      match recur d.cls (gdPk d) with
      | Except.error e => Except.error e
      | Except.ok _ => (checkEach recur ds).map (fun l => d :: l)

/-- One pass over a document's reverse-reference list: a Restrict entry with
at least one match fails immediately; a Cascade entry recursively validates
and collects each match. -/
def checkRefs (recur : String → Val → Except DelErr (List GDoc)) (st : GStore)
    (pk : Val) : List RRef → Except DelErr (List GDoc)
  | [] => Except.ok []
  | r :: rest =>
      let ds := findRefs st r.refClass r.fieldPath pk
      if r.onDelete = Policy.restrict then
        if ds.length > 0 then Except.error DelErr.restricted
        else checkRefs recur st pk rest
      else
        match checkEach recur ds with
        | Except.error e => Except.error e
        | Except.ok collected =>
            (checkRefs recur st pk rest).map (fun l => collected ++ l)

/-- `Document._check_delete_restrict`, with explicit recursion fuel standing
in for Python's unbounded call stack: it only queries the store and either
fails or returns the top-level cascade documents. -/
def checkDeleteRestrict : Nat → RRegistry → GStore → String → Val →
    Except DelErr (List GDoc)
  | 0, _, _, _, _ => Except.error DelErr.outOfFuel
  | Nat.succ fuel, reg, st, cls, pk =>
      checkRefs (checkDeleteRestrict fuel reg st) st pk (regRefs reg cls)

/-- Delete each cascade-collected document in order through the supplied
recursive delete, stopping at the first error. -/
def deleteList (recur : GStore → String → Val → Int → GStore × Option DelErr) :
    GStore → List GDoc → GStore × Option DelErr
  | st, [] => (st, none)
  | st, d :: ds =>
      let v :=
        match dbGet d.data "_version" with
        | some (Val.vInt n) => n
        | _ => 0
      match recur st d.cls (gdPk d) v with
      | (st', some e) => (st', some e)
      | (st', none) => deleteList recur st' ds

/-- `Document.delete`: validate the whole reverse-reference graph first (a
failure there leaves the store untouched), then acquire the editorial mutex,
remove the primary record, its revisions and its search entry, and finally
delete every cascade-collected document (each re-validated by its own
recursive call). -/
def deleteDoc : Nat → RRegistry → (String → Bool) → (String → Bool) →
    GStore → String → Val → Int → Int → GStore × Option DelErr
  | 0, _, _, _, st, _, _, _, _ => (st, some DelErr.outOfFuel)
  | Nat.succ fuel, reg, rev, sea, st, cls, pk, version, now =>
      match checkDeleteRestrict (Nat.succ fuel) reg st cls pk with
      | Except.error e => (st, some e)
      | Except.ok cascadeDocs =>
          let isTarget := fun (d : GDoc) => d.cls = cls && lockMatch pk version now d.data
          match st.docs.find? isTarget with
          | none => (st, some DelErr.mutexNotAcquired)
          | some _ =>
              let docs1 :=
                replaceFirst isTarget
                  (fun d => { d with data := dbSet d.data "_mutex" (Val.vTime (now + 30)) })
                  st.docs
              let docs2 := docs1.filter (fun d => !(d.cls = cls && dbGet d.data "_id" = some pk))
              let revs2 :=
                if rev cls then st.revisions.filter (fun p => !(p.1 = cls && p.2 = pk))
                else st.revisions
              let sids2 :=
                if sea cls then st.searchIds.filter (fun p => !(p.1 = cls && p.2 = pk))
                else st.searchIds
              deleteList (fun s c p v => deleteDoc fuel reg rev sea s c p v now)
                { docs := docs2, revisions := revs2, searchIds := sids2 }
                cascadeDocs

/-! ### Predicates and concrete instances used by the claim theorems -/

/-- The walk of `resolve_subfield_hierarchy` hits an unknown name: some path
element is missing from the metadata table consulted at its position, while
metadata is still being walked (`leaf`, the absence of subfield metadata,
never fails — the remaining elements pass through unresolved). -/
inductive WalkFails : FieldMeta → List String → Prop where
  | here {m : FieldMeta} {e : String} {rest : List String}
      (hm : m ≠ FieldMeta.leaf) (hl : m.lookupF e = none) :
      WalkFails m (e :: rest)
  | there {m : FieldMeta} {e : String} {rest : List String}
      {db : String} {sub : FieldMeta}
      (hl : m.lookupF e = some (db, sub)) (h : WalkFails sub rest) :
      WalkFails m (e :: rest)

/-- The concrete metadata of a schema with a single text field `title`
carrying no subfield metadata. -/
def exTitleMeta : FieldMeta :=
  FieldMeta.cons "title" "title" FieldMeta.leaf FieldMeta.nil

/-- A plain field with identity store encodings and a variant validation
that accepts every value — the behaviour of a simple text/integer field. -/
def plainField (name db : String) (required virt : Bool) (default : Option Val) :
    FieldSpec :=
  { name := name
    db_name := db
    required := required
    virtual := virt
    revisable := true
    noPreSave := false
    preSave := basePreSave default
    validate := fun _ _ => true
    toStore := fun v => v
    fromStore := fun v => v
    toRevision := fun v => v }

/-- A concrete primary-key field. -/
def exPkField : FieldSpec := plainField "pk" "_id" false false none

/-- A concrete required field carrying a default value. -/
def exNoteField : FieldSpec :=
  plainField "note" "note" true false (some (Val.vStr "dflt"))

/-- A concrete required virtual field. -/
def exTagField : FieldSpec := plainField "tag" "tag" true true none

/-- A concrete required field with no default. -/
def exReqField : FieldSpec := plainField "req" "req" true false none

/-- The schema of the required-with-default example. -/
def exC4Schema : Schema := [exPkField, exNoteField, exTagField]

/-- A persisted in-memory document whose required fields are all null. -/
def exC4Mem : MemDoc := { values := [("pk", Val.vInt 7)], version := some 1 }

/-- A one-document store matching the example document. -/
def exC4St : Store :=
  { docs := [[("_id", Val.vInt 7), ("_version", Val.vInt 1), ("_mutex", Val.vTime 0)]]
    revisions := [] }

/-- The schema of the delta-free-write example: a primary key, a `title`
field and a nullable `note` field, all with identity encodings. -/
def exC7Schema : Schema :=
  [exPkField, plainField "title" "title" false false none,
   plainField "note" "note" false false none]

/-- An in-memory document whose `title` equals the stored value and whose
`note` is null. -/
def exC7Mem : MemDoc :=
  { values := [("pk", Val.vInt 7), ("title", Val.vStr "a")], version := some 1 }

/-- A one-document store where `title` is unchanged and `note` holds an old
value. -/
def exC7St : Store :=
  { docs := [[("_id", Val.vInt 7), ("_version", Val.vInt 1), ("_mutex", Val.vTime 0),
              ("title", Val.vStr "a"), ("note", Val.vStr "old")]]
    revisions := [] }

/-- A revisable integer field whose example pre-update value is the falsy
integer `0`. -/
def exC5CountField : FieldSpec := plainField "count" "count" false false none

/-- The schema of the falsy-snapshot example: a primary key and a revisable
integer `count`. -/
def exC5Schema : Schema := [exPkField, exC5CountField]

/-- An in-memory document whose revisable `count` holds the falsy integer 0. -/
def exC5Mem : MemDoc :=
  { values := [("pk", Val.vInt 7), ("count", Val.vInt 0)], version := some 1 }

/-- A one-document store whose stored `count` is 0 and whose engine-managed
creation metadata is present, as every engine write leaves it. -/
def exC5St : Store :=
  { docs := [[("_id", Val.vInt 7), ("_version", Val.vInt 1), ("_mutex", Val.vTime 0),
              ("count", Val.vInt 0), ("_last_update", Val.vTime 5),
              ("_last_author", Val.null)]]
    revisions := [] }

/-- A one-document store like the delta-free-write example's, with the
engine-managed creation metadata present. -/
def exC5WSt : Store :=
  { docs := [[("_id", Val.vInt 7), ("_version", Val.vInt 1), ("_mutex", Val.vTime 0),
              ("title", Val.vStr "a"), ("note", Val.vStr "old"),
              ("_last_update", Val.vTime 10), ("_last_author", Val.null)]]
    revisions := [] }

/-- `N` sequential snapshotted saves of the same document instance, each
started 100 seconds after the previous one: every step must take the
update path (a lease-acquiring `$set`/`$inc` commit), otherwise the whole
sequence is rejected. -/
def saveSeq (schema : Schema) (author : Val) :
    Nat → Int → MemDoc → Store → Option (Store × MemDoc)
  | 0, _, mem, st => some (st, mem)
  | n + 1, now, mem, st =>
      match saveToDb schema true true author now mem st with
      | (st', SaveResult.updated mem' _ _) =>
          saveSeq schema author n (now + 100) mem' st'
      | _ => none

/-- The `n` consecutive integer versions starting at `v0`. -/
def intRange (v0 : Int) : Nat → List Int
  | 0 => []
  | n + 1 => v0 :: intRange (v0 + 1) n

/-- The store reached by two sequential snapshotted saves of the concrete
example document: one committed document at version 3 and two revision
records keyed by the two pre-update versions. -/
def exC5SeqStore : Store :=
  { docs := [[("_id", Val.vInt 7), ("_version", Val.vInt 3),
              ("_mutex", Val.vTime (-3450)), ("title", Val.vStr "a"),
              ("note", Val.null), ("_last_update", Val.vTime 150),
              ("_last_author", Val.null)]]
    revisions :=
      [{ rid := "7.1", doc := Val.vInt 7, version := 1,
         created := Val.vTime 10, author := Val.null,
         document := [("_id", Val.vInt 7), ("title", Val.vStr "a"),
                      ("note", Val.vStr "old")] },
       { rid := "7.2", doc := Val.vInt 7, version := 2,
         created := Val.vTime 50, author := Val.null,
         document := [("_id", Val.vInt 7), ("title", Val.vStr "a")] }] }

/-- The in-memory state reached by those two sequential saves. -/
def exC5SeqMem : MemDoc :=
  { values := [("pk", Val.vInt 7), ("title", Val.vStr "a")], version := some 3 }

/-- Somewhere in the transitive delete graph rooted at `(cls, pk)` there is a
Restrict-policy reverse reference with at least one live referencing
document: either directly on this document, or on a document reached through
a cascade edge. -/
inductive Violation (reg : RRegistry) (st : GStore) : String → Val → Prop where
  | here {cls : String} {pk : Val} {r : RRef}
      (hr : r ∈ regRefs reg cls) (hres : r.onDelete = Policy.restrict)
      (hne : 0 < (findRefs st r.refClass r.fieldPath pk).length) :
      Violation reg st cls pk
  | step {cls : String} {pk : Val} {r : RRef} {d : GDoc}
      (hr : r ∈ regRefs reg cls) (hcas : r.onDelete = Policy.cascade)
      (hd : d ∈ findRefs st r.refClass r.fieldPath pk)
      (h : Violation reg st d.cls (gdPk d)) :
      Violation reg st cls pk

/-- A registry where documents of class `B` hold a Restrict-policy reference
to documents of class `A` through their `a_ref` field. -/
def exC3Reg : RRegistry := [("A", [⟨"B", "a_ref", Policy.restrict⟩])]

/-- A store with one `A` document and one `B` document referencing it. -/
def exC3St : GStore :=
  { docs := [⟨"A", [("_id", Val.vInt 1), ("_version", Val.vInt 1),
                    ("_mutex", Val.vTime 0)]⟩,
             ⟨"B", [("_id", Val.vInt 2), ("a_ref", Val.vInt 1)]⟩]
    revisions := [("A", Val.vInt 1)]
    searchIds := [("A", Val.vInt 1)] }

/-! ### Basic lemmas about the store primitives -/

theorem dbGet_dbSet_self (d : DbDoc) (k : String) (v : Val) :
    dbGet (dbSet d k v) k = some v := by
  induction d with
  | nil => simp [dbSet, dbGet]
  | cons p rest ih =>
      by_cases hp : p.1 = k
      · simp [dbSet, dbGet, hp]
      · simp [dbSet, dbGet, hp, ih]

theorem dbGet_dbSet_ne (d : DbDoc) (k k' : String) (v : Val) (h : k' ≠ k) :
    dbGet (dbSet d k v) k' = dbGet d k' := by
  have hkk : ¬ k = k' := fun hk => h hk.symm
  induction d with
  | nil => simp [dbSet, dbGet, hkk]
  | cons p rest ih =>
      by_cases hp : p.1 = k
      · have hpk' : ¬ p.1 = k' := by rw [hp]; exact hkk
        simp only [dbSet, if_pos hp, dbGet, if_neg hkk, if_neg hpk']
      · simp only [dbSet, if_neg hp]
        by_cases hn : p.1 = k'
        · simp only [dbGet, if_pos hn]
        · simp only [dbGet, if_neg hn, ih]

theorem getVal_filter_ne (rest : Values) (name name' : String) (h : name' ≠ name) :
    getVal (rest.filter (fun p => p.1 ≠ name)) name' = getVal rest name' := by
  induction rest with
  | nil => simp [getVal]
  | cons p rs ih =>
      by_cases hp : p.1 = name
      · have hpn : ¬ p.1 = name' := by rw [hp]; exact fun hk => h hk.symm
        simp only [List.filter_cons, hp]
        simpa [getVal, if_neg hpn] using ih
      · by_cases hn : p.1 = name'
        · simp only [List.filter_cons]
          rw [if_pos (by simpa using hp)]
          simp [getVal, hn]
        · simp only [List.filter_cons]
          rw [if_pos (by simpa using hp)]
          simp only [getVal, if_neg hn]
          exact ih

theorem getVal_setVal_self (vs : Values) (name : String) (v : Option Val) :
    getVal (setVal vs name v) name = v := by
  match v with
  | none =>
      simp only [setVal]
      induction vs with
      | nil => simp [getVal]
      | cons p rest ih =>
          by_cases hp : p.1 = name
          · simp only [List.filter_cons]
            rw [if_neg (by simpa using hp)]
            exact ih
          · simp only [List.filter_cons]
            rw [if_pos (by simpa using hp)]
            simp only [getVal, if_neg hp]
            exact ih
  | some x =>
      induction vs with
      | nil => simp [setVal, getVal]
      | cons p rest ih =>
          by_cases hp : p.1 = name
          · simp [setVal, if_pos hp, getVal]
          · simp only [setVal, if_neg hp, getVal]
            exact ih

theorem getVal_setVal_ne (vs : Values) (name name' : String) (v : Option Val)
    (h : name' ≠ name) :
    getVal (setVal vs name v) name' = getVal vs name' := by
  have hkk : ¬ name = name' := fun hk => h hk.symm
  match v with
  | none => simp only [setVal]; exact getVal_filter_ne vs name name' h
  | some x =>
      induction vs with
      | nil => simp [setVal, getVal, hkk]
      | cons p rest ih =>
          by_cases hp : p.1 = name
          · have hpn : ¬ p.1 = name' := by rw [hp]; exact hkk
            simp only [setVal, if_pos hp, getVal, if_neg hkk, if_neg hpn]
          · simp only [setVal, if_neg hp]
            by_cases hn : p.1 = name'
            · simp only [getVal, if_pos hn]
            · simp only [getVal, if_neg hn]
              exact ih

theorem replaceFirst_spec {α : Type} (p : α → Bool) (g : α → α) :
    ∀ l : List α,
      (l.find? p = none → replaceFirst p g l = l) ∧
      (∀ d, l.find? p = some d →
        ∃ l1 l2, l = l1 ++ d :: l2 ∧ (∀ x ∈ l1, p x = false) ∧
          replaceFirst p g l = l1 ++ g d :: l2) := by
  intro l
  induction l with
  | nil => exact ⟨fun _ => rfl, fun d h => by simp [List.find?] at h⟩
  | cons x xs ih =>
      constructor
      · intro h
        simp only [List.find?] at h
        by_cases hx : p x
        · simp [hx] at h
        · simp only [hx] at h
          unfold replaceFirst
          rw [if_neg (by simp [hx]), (ih.1 h)]
      · intro d h
        simp only [List.find?] at h
        by_cases hx : p x
        · simp only [hx] at h
          injection h with h
          subst h
          exact ⟨[], xs, by simp, by simp, by unfold replaceFirst; simp [hx]⟩
        · simp only [hx] at h
          obtain ⟨l1, l2, hl, hnm, hrf⟩ := ih.2 d h
          exact ⟨x :: l1, l2, by simp [hl], by
            intro y hy
            rcases List.mem_cons.mp hy with hy | hy
            · subst hy; simpa using hx
            · exact hnm y hy, by
            unfold replaceFirst
            rw [if_neg (by simp [hx]), hrf]
            simp⟩

theorem find?_eq_none_of_all {α : Type} (p : α → Bool) (l : List α)
    (h : ∀ x ∈ l, p x = false) : l.find? p = none := by
  induction l with
  | nil => rfl
  | cons x xs ih =>
      simp only [List.find?]
      rw [h x (List.mem_cons_self x xs)]
      exact ih (fun y hy => h y (List.mem_cons_of_mem x hy))

/-! ### Lemmas about stored-document and value-mapping surgery -/

theorem dbGet_eq_none_of_not_mem (d : DbDoc) (k : String)
    (h : k ∉ d.map Prod.fst) : dbGet d k = none := by
  induction d with
  | nil => rfl
  | cons p rest ih =>
      simp only [List.map_cons, List.mem_cons, not_or] at h
      simp only [dbGet]
      rw [if_neg (fun hk => h.1 hk.symm)]
      exact ih h.2

theorem mem_of_dbGet_eq_some (d : DbDoc) (k : String) (v : Val)
    (h : dbGet d k = some v) : k ∈ d.map Prod.fst := by
  induction d with
  | nil => exact absurd h (by simp [dbGet])
  | cons p rest ih =>
      simp only [dbGet] at h
      by_cases hp : p.1 = k
      · simp [← hp]
      · rw [if_neg hp] at h
        simp only [List.map_cons, List.mem_cons]
        exact Or.inr (ih h)

theorem dbSet_keys (d : DbDoc) (k : String) (v : Val) :
    (dbSet d k v).map Prod.fst
      = if k ∈ d.map Prod.fst then d.map Prod.fst else d.map Prod.fst ++ [k] := by
  induction d with
  | nil => simp [dbSet]
  | cons p rest ih =>
      by_cases hp : p.1 = k
      · simp [dbSet, hp]
      · simp only [dbSet, if_neg hp, List.map_cons, ih, List.mem_cons]
        have : ¬ k = p.1 := fun hk => hp hk.symm
        by_cases hm : k ∈ rest.map Prod.fst
        · simp [hm, this]
        · simp [hm, this]

theorem dbSet_keys_nodup (d : DbDoc) (k : String) (v : Val)
    (h : (d.map Prod.fst).Nodup) : ((dbSet d k v).map Prod.fst).Nodup := by
  rw [dbSet_keys]
  by_cases hm : k ∈ d.map Prod.fst
  · simpa [hm] using h
  · simp only [hm, if_false]
    exact List.Nodup.append h (List.nodup_singleton k)
      (by simpa [List.disjoint_singleton] using hm)

theorem applySet_keys_nodup (s : DbDoc) :
    ∀ d : DbDoc, (d.map Prod.fst).Nodup → ((applySet d s).map Prod.fst).Nodup := by
  induction s with
  | nil => intro d h; simpa [applySet] using h
  | cons p rest ih =>
      intro d h
      have : applySet d (p :: rest) = applySet (dbSet d p.1 p.2) rest := rfl
      rw [this]
      exact ih _ (dbSet_keys_nodup d p.1 p.2 h)

theorem dbGet_isSome_dbSet (d : DbDoc) (k k' : String) (v : Val)
    (h : (dbGet d k').isSome) : (dbGet (dbSet d k v) k').isSome := by
  by_cases hk : k' = k
  · subst hk; rw [dbGet_dbSet_self]; rfl
  · rw [dbGet_dbSet_ne d k k' v hk]; exact h

theorem dbGet_isSome_applySet (s : DbDoc) :
    ∀ d : DbDoc, ∀ k : String, (dbGet d k).isSome → (dbGet (applySet d s) k).isSome := by
  induction s with
  | nil => intro d k h; simpa [applySet] using h
  | cons p rest ih =>
      intro d k h
      have : applySet d (p :: rest) = applySet (dbSet d p.1 p.2) rest := rfl
      rw [this]
      exact ih _ k (dbGet_isSome_dbSet d p.1 k p.2 h)

theorem dbGet_applySet_of_get_none (s : DbDoc) :
    ∀ d : DbDoc, ∀ k : String, dbGet s k = none →
      dbGet (applySet d s) k = dbGet d k := by
  induction s with
  | nil => intro d k _; rfl
  | cons p rest ih =>
      intro d k h
      have happ : applySet d (p :: rest) = applySet (dbSet d p.1 p.2) rest := rfl
      rw [happ]
      simp only [dbGet] at h
      by_cases hp : p.1 = k
      · rw [if_pos hp] at h; exact absurd h (by simp)
      · rw [if_neg hp] at h
        rw [ih _ k h, dbGet_dbSet_ne d p.1 k p.2 (fun hk => hp hk.symm)]

theorem dbGet_applySet_of_get_some (s : DbDoc) :
    ∀ d : DbDoc, ∀ k : String, ∀ v : Val,
      (s.map Prod.fst).Nodup → dbGet s k = some v →
      dbGet (applySet d s) k = some v := by
  induction s with
  | nil => intro d k v _ h; exact absurd h (by simp [dbGet])
  | cons p rest ih =>
      intro d k v hnd h
      have happ : applySet d (p :: rest) = applySet (dbSet d p.1 p.2) rest := rfl
      rw [happ]
      simp only [List.map_cons, List.nodup_cons] at hnd
      simp only [dbGet] at h
      by_cases hp : p.1 = k
      · rw [if_pos hp] at h
        injection h with h
        subst h
        -- the key does not recur in the tail, so the set survives the fold
        have hrest : dbGet rest k = none :=
          dbGet_eq_none_of_not_mem rest k (by rw [← hp]; exact hnd.1)
        rw [dbGet_applySet_of_get_none rest _ k hrest, hp, dbGet_dbSet_self]
      · rw [if_neg hp] at h
        exact ih _ k v hnd.2 h

theorem dbGet_dbErase_ne (d : DbDoc) (k k' : String) (h : k' ≠ k) :
    dbGet (dbErase d k) k' = dbGet d k' := by
  induction d with
  | nil => rfl
  | cons p rest ih =>
      by_cases hp : p.1 = k
      · simp only [dbErase, List.filter_cons]
        rw [if_neg (by simpa using hp)]
        simp only [dbGet]
        rw [if_neg (by rw [hp]; exact fun hk => h hk.symm)]
        exact ih
      · simp only [dbErase, List.filter_cons]
        rw [if_pos (by simpa using hp)]
        simp only [dbGet]
        by_cases hk' : p.1 = k'
        · rw [if_pos hk', if_pos hk']
        · rw [if_neg hk', if_neg hk']
          exact ih

theorem dbErase_keys_sublist (d : DbDoc) (k : String) :
    ((dbErase d k).map Prod.fst).Sublist (d.map Prod.fst) :=
  List.Sublist.map _ (List.filter_sublist d)

theorem dbErase_keys_nodup (d : DbDoc) (k : String)
    (h : (d.map Prod.fst).Nodup) : ((dbErase d k).map Prod.fst).Nodup :=
  List.Nodup.sublist (dbErase_keys_sublist d k) h

theorem dbGet_dbErase_self (d : DbDoc) (k : String) :
    dbGet (dbErase d k) k = none := by
  induction d with
  | nil => rfl
  | cons p rest ih =>
      by_cases hp : p.1 = k
      · simp only [dbErase, List.filter_cons]
        rw [if_neg (by simpa using hp)]
        exact ih
      · simp only [dbErase, List.filter_cons]
        rw [if_pos (by simpa using hp)]
        simp only [dbGet, if_neg hp]
        exact ih

theorem dbname_ne_of_not_mem (schema : Schema) (f : FieldSpec) (hf : f ∈ schema)
    (k : String) (h : k ∉ schema.map (fun x => x.db_name)) : f.db_name ≠ k :=
  fun he => h (he ▸ List.mem_map_of_mem (fun x => x.db_name) hf)

theorem find?_middle {α : Type} (p : α → Bool) (l1 l2 : List α) (d : α)
    (h1 : ∀ x ∈ l1, p x = false) (hd : p d = true) :
    (l1 ++ d :: l2).find? p = some d := by
  induction l1 with
  | nil => simp [List.find?, hd]
  | cons x xs ih =>
      simp only [List.cons_append, List.find?]
      rw [h1 x (List.mem_cons_self x xs)]
      exact ih (fun y hy => h1 y (List.mem_cons_of_mem x hy))

theorem replaceFirst_middle {α : Type} (p : α → Bool) (g : α → α)
    (l1 l2 : List α) (d : α)
    (h1 : ∀ x ∈ l1, p x = false) (hd : p d = true) :
    replaceFirst p g (l1 ++ d :: l2) = l1 ++ g d :: l2 := by
  induction l1 with
  | nil => simp [replaceFirst, hd]
  | cons x xs ih =>
      simp only [List.cons_append, replaceFirst]
      rw [if_neg (by rw [h1 x (List.mem_cons_self x xs)]; simp)]
      exact congrArg (List.cons x) (ih (fun y hy => h1 y (List.mem_cons_of_mem x hy)))

theorem getFieldByDbName_self (schema : Schema) (f : FieldSpec)
    (hdb : (schema.map (fun x => x.db_name)).Nodup) (hf : f ∈ schema) :
    getFieldByDbName schema f.db_name = some f := by
  induction schema with
  | nil => exact absurd hf (by simp)
  | cons g rest ih =>
      simp only [List.map_cons, List.nodup_cons] at hdb
      rcases List.mem_cons.mp hf with hf | hf
      · subst hf
        simp [getFieldByDbName, List.find?]
      · have hne : ¬ g.db_name = f.db_name := by
          intro he
          exact hdb.1 (he ▸ List.mem_map_of_mem (fun x => x.db_name) hf)
        simp only [getFieldByDbName, List.find?]
        rw [show (decide (g.db_name = f.db_name)) = false from by simpa using hne]
        exact ih hdb.2 hf

theorem getFieldByDbName_mem (schema : Schema) (k : String) (g : FieldSpec)
    (h : getFieldByDbName schema k = some g) : g ∈ schema ∧ g.db_name = k := by
  unfold getFieldByDbName at h
  exact ⟨List.mem_of_find?_eq_some h, by simpa using List.find?_some h⟩

/-! ### Characterization of `_db_prepare` and `_set_from_db` -/

theorem dbPrepare_spec :
    ∀ (schema : Schema) (vs : Values) (doc : DbDoc) (vs' : Values),
      (schema.map (fun f => f.name)).Nodup →
      (schema.map (fun f => f.db_name)).Nodup →
      dbPrepare schema vs = Except.ok (doc, vs') →
      (∀ f ∈ schema, f.virtual = false →
          dbGet doc f.db_name = some (encodeField f (getVal vs' f.name))) ∧
      (∀ n, n ∉ schema.map (fun f => f.name) → getVal vs' n = getVal vs n) ∧
      doc.map Prod.fst = (schema.filter (fun f => !f.virtual)).map (fun f => f.db_name) ∧
      (∀ f ∈ schema, f.virtual = false →
          getVal vs' f.name = getVal vs f.name ∨
          ∃ vsx, getVal vs' f.name = f.preSave (getVal vs f.name) vsx) := by
  intro schema
  induction schema with
  | nil =>
      intro vs doc vs' _ _ h
      simp only [dbPrepare] at h
      injection h with h
      injection h with h1 h2
      subst h1; subst h2
      exact ⟨by simp, fun n _ => rfl, by simp, by simp⟩
  | cons g rest ih =>
      intro vs doc vs' hnames hdb h
      simp only [List.map_cons, List.nodup_cons] at hnames hdb
      simp only [dbPrepare] at h
      by_cases hv : g.virtual = true
      · rw [if_pos hv] at h
        obtain ⟨h1, h2, h3, h4⟩ := ih vs doc vs' hnames.2 hdb.2 h
        refine ⟨?_, ?_, ?_, ?_⟩
        · intro f hf hfv
          rcases List.mem_cons.mp hf with hf | hf
          · subst hf; rw [hv] at hfv; exact absurd hfv (by simp)
          · exact h1 f hf hfv
        · intro n hn
          exact h2 n (fun hm => hn (List.mem_cons_of_mem _ hm))
        · have hfil : (g :: rest).filter (fun f => !f.virtual)
              = rest.filter (fun f => !f.virtual) := by
            simp [List.filter_cons, hv]
          rw [hfil]
          exact h3
        · intro f hf hfv
          rcases List.mem_cons.mp hf with hf | hf
          · subst hf; rw [hv] at hfv; exact absurd hfv (by simp)
          · exact h4 f hf hfv
      · rw [if_neg hv] at h
        rw [Bool.not_eq_true] at hv
        by_cases hval : validateField g (prepValue g vs) vs = true
        · rw [if_pos hval] at h
          match hrest : dbPrepare rest (setVal vs g.name (prepValue g vs)) with
          | Except.error e => rw [hrest] at h; exact absurd h (by simp)
          | Except.ok (doc0, vs0) =>
              rw [hrest] at h
              injection h with h
              injection h with hdoc hvs
              subst hvs
              subst hdoc
              obtain ⟨h1, h2, h3, h4⟩ := ih _ doc0 vs0 hnames.2 hdb.2 hrest
              have hgname : g.name ∉ rest.map (fun f => f.name) := hnames.1
              have hvsg : getVal vs0 g.name = prepValue g vs := by
                rw [h2 g.name hgname, getVal_setVal_self]
              refine ⟨?_, ?_, ?_, ?_⟩
              · intro f hf hfv
                rcases List.mem_cons.mp hf with hf | hf
                · subst hf
                  rw [hvsg]
                  simp [dbGet]
                · have hne : ¬ g.db_name = f.db_name := by
                    intro he
                    exact hdb.1 (he ▸ List.mem_map_of_mem (fun x => x.db_name) hf)
                  simp only [dbGet]
                  rw [if_neg hne]
                  exact h1 f hf hfv
              · intro n hn
                simp only [List.map_cons, List.mem_cons, not_or] at hn
                rw [h2 n hn.2, getVal_setVal_ne vs g.name n _ hn.1]
              · have hfil : (g :: rest).filter (fun f => !f.virtual)
                    = g :: rest.filter (fun f => !f.virtual) := by
                  simp [List.filter_cons, hv]
                rw [hfil]
                simp only [List.map_cons]
                rw [h3]
              · intro f hf hfv
                rcases List.mem_cons.mp hf with hf | hf
                · subst hf
                  rw [hvsg]
                  unfold prepValue
                  by_cases hnp : f.noPreSave = true
                  · rw [if_pos hnp]; exact Or.inl rfl
                  · rw [if_neg hnp]; exact Or.inr ⟨_, rfl⟩
                · have hfn : ¬ f.name = g.name := by
                    intro he
                    exact hnames.1 (he ▸ List.mem_map_of_mem (fun x => x.name) hf)
                  rcases h4 f hf hfv with h4f | h4f
                  · rw [h4f, getVal_setVal_ne vs g.name f.name _ hfn]
                    exact Or.inl rfl
                  · obtain ⟨vsx, h4f⟩ := h4f
                    rw [getVal_setVal_ne vs g.name f.name _ hfn] at h4f
                    exact Or.inr ⟨vsx, h4f⟩
        · rw [if_neg hval] at h
          exact absurd h (by simp)

theorem readVals_get (schema : Schema) (f : FieldSpec)
    (hnames : (schema.map (fun x => x.name)).Nodup)
    (hdb : (schema.map (fun x => x.db_name)).Nodup)
    (hf : f ∈ schema) :
    ∀ (d : DbDoc) (acc : Values), (d.map Prod.fst).Nodup →
      getVal (d.foldl (readStep schema) acc) f.name
        = (match dbGet d f.db_name with
           | none => getVal acc f.name
           | some Val.null => getVal acc f.name
           | some v => some (f.fromStore v)) := by
  intro d
  induction d with
  | nil => intro acc _; rfl
  | cons p rest ih =>
      intro acc hnd
      simp only [List.map_cons, List.nodup_cons] at hnd
      simp only [List.foldl_cons]
      by_cases hp : p.1 = f.db_name
      · have hfield : getFieldByDbName schema p.1 = some f := by
          rw [hp]; exact getFieldByDbName_self schema f hdb hf
        have hrest : dbGet rest f.db_name = none :=
          dbGet_eq_none_of_not_mem rest f.db_name (hp ▸ hnd.1)
        by_cases hnull : p.2 = Val.null
        · have hstep : readStep schema acc p = acc := by
            unfold readStep
            rw [hfield]
            exact if_pos hnull
          rw [hstep, ih acc hnd.2, hrest]
          simp only [dbGet, if_pos hp, hnull]
        · have hstep : readStep schema acc p
              = setVal acc f.name (some (f.fromStore p.2)) := by
            unfold readStep
            rw [hfield]
            exact if_neg hnull
          rw [hstep, ih _ hnd.2, hrest]
          simp only [dbGet, if_pos hp]
          match hv : p.2 with
          | Val.null => exact absurd hv hnull
          | Val.vInt n => exact getVal_setVal_self _ _ _
          | Val.vStr s => exact getVal_setVal_self _ _ _
          | Val.vBool b => exact getVal_setVal_self _ _ _
          | Val.vTime t => exact getVal_setVal_self _ _ _
      · have hstep : getVal (readStep schema acc p) f.name = getVal acc f.name := by
          unfold readStep
          match hg : getFieldByDbName schema p.1 with
          | none => rfl
          | some g =>
              obtain ⟨hgmem, hgdb⟩ := getFieldByDbName_mem schema p.1 g hg
              have hgn : ¬ f.name = g.name := by
                intro he
                have hfg : f = g :=
                  List.inj_on_of_nodup_map hnames hf hgmem he
                exact hp (by rw [← hgdb, ← hfg])
              show getVal (if p.2 = Val.null then acc
                  else setVal acc g.name (some (g.fromStore p.2))) f.name
                = getVal acc f.name
              by_cases hnull : p.2 = Val.null
              · rw [if_pos hnull]
              · rw [if_neg hnull]
                exact getVal_setVal_ne acc g.name f.name _ hgn
        rw [ih (readStep schema acc p) hnd.2]
        have hdget : dbGet (p :: rest) f.db_name = dbGet rest f.db_name := by
          simp only [dbGet]
          rw [if_neg hp]
        rw [hdget]
        match hdg : dbGet rest f.db_name with
        | none => exact hstep
        | some Val.null => exact hstep
        | some (Val.vInt n) => rfl
        | some (Val.vStr s) => rfl
        | some (Val.vBool b) => rfl
        | some (Val.vTime t) => rfl

/-! ### Claim C8: unknown field names during query compilation -/

theorem except_map_error_iff {α β ε : Type} (f : α → β) (x : Except ε α) (e : ε) :
    Except.map f x = Except.error e ↔ x = Except.error e := by
  cases x <;> simp [Except.map]

theorem resolve_leaf_ok (l : List String) :
    resolveSubfieldHierarchy FieldMeta.leaf l = Except.ok l := by
  induction l with
  | nil => rfl
  | cons e rest ih => simp [resolveSubfieldHierarchy, ih, Except.map]

theorem resolve_error_iff_walkFails (l : List String) :
    ∀ m : FieldMeta,
      resolveSubfieldHierarchy m l = Except.error QueryErr.unknownField ↔ WalkFails m l := by
  induction l with
  | nil =>
      intro m
      constructor
      · intro h
        rw [show resolveSubfieldHierarchy m [] = Except.ok [] from by
              cases m <;> rfl] at h
        exact absurd h (by simp)
      · intro h; cases h
  | cons e rest ih =>
      intro m
      match m with
      | FieldMeta.leaf =>
          constructor
          · intro h
            rw [show resolveSubfieldHierarchy FieldMeta.leaf (e :: rest)
                  = (resolveSubfieldHierarchy FieldMeta.leaf rest).map (fun l => e :: l)
                from rfl, resolve_leaf_ok] at h
            exact absurd h (by simp [Except.map])
          · intro h
            cases h with
            | here hm _ => exact absurd rfl hm
            | there hl _ => exact absurd hl (by simp [FieldMeta.lookupF])
      | FieldMeta.nil =>
          constructor
          · intro _
            exact WalkFails.here (by simp) rfl
          · intro _
            rfl
      | FieldMeta.cons n db sub mrest =>
          have hres : resolveSubfieldHierarchy (FieldMeta.cons n db sub mrest) (e :: rest)
              = (match (FieldMeta.cons n db sub mrest).lookupF e with
                 | none => Except.error QueryErr.unknownField
                 | some (db', sub') =>
                     (resolveSubfieldHierarchy sub' rest).map (fun l => db' :: l)) := rfl
          match hl : (FieldMeta.cons n db sub mrest).lookupF e with
          | none =>
              rw [hres, hl]
              constructor
              · intro _
                exact WalkFails.here (by simp) hl
              · intro _
                rfl
          | some (db', sub') =>
              rw [hres, hl]
              constructor
              · intro h
                rw [except_map_error_iff] at h
                exact WalkFails.there hl ((ih sub').mp h)
              · intro h
                cases h with
                | here _ hl0 => rw [hl] at hl0; exact absurd hl0 (by simp)
                | there hl0 h0 =>
                    rw [hl] at hl0
                    injection hl0 with hl0
                    injection hl0 with h1 h2
                    subst h1; subst h2
                    rw [except_map_error_iff]
                    exact (ih _).mpr h0

/-- C8 (amended): compiling a query specification fails with `UnknownField`
exactly when the walk of some criterion's path (after popping a trailing
operator suffix) encounters a name missing from the metadata still being
consulted at its position; once the path crosses a field with no subfield
metadata the remaining elements — known to the schema or not — are passed
through unresolved and never fail. -/
theorem parse_spec_unknown_field_iff (meta : FieldMeta) :
    (∀ spec : List (String × Val),
       parseSpec meta spec = Except.error QueryErr.unknownField ↔
         ∃ kv ∈ spec, WalkFails meta (splitKey kv.1).1) ∧
    (∀ key : String,
       parseSpecKey meta key = Except.error QueryErr.unknownField ↔
         WalkFails meta (splitKey key).1) ∧
    (∀ l : List String, resolveSubfieldHierarchy FieldMeta.leaf l = Except.ok l) := by
  have hkey : ∀ key : String,
      parseSpecKey meta key = Except.error QueryErr.unknownField ↔
        WalkFails meta (splitKey key).1 := by
    intro key
    unfold parseSpecKey
    rw [except_map_error_iff]
    exact resolve_error_iff_walkFails _ meta
  refine ⟨?_, hkey, resolve_leaf_ok⟩
  intro spec
  induction spec with
  | nil =>
      simp only [parseSpec]
      constructor
      · intro h; exact absurd h (by simp)
      · rintro ⟨kv, hkv, _⟩; exact absurd hkv (by simp)
  | cons kv rest ih =>
      simp only [parseSpec]
      match hpk : parseSpecKey meta kv.1 with
      | Except.error e =>
          match e with
          | QueryErr.unknownField =>
              constructor
              · intro _
                exact ⟨kv, List.mem_cons_self kv rest, (hkey kv.1).mp hpk⟩
              · intro _
                rfl
      | Except.ok po =>
          constructor
          · intro h
            rw [except_map_error_iff] at h
            obtain ⟨kv', hkv', hw⟩ := ih.mp h
            exact ⟨kv', List.mem_cons_of_mem kv hkv', hw⟩
          · rintro ⟨kv', hkv', hw⟩
            rcases List.mem_cons.mp hkv' with hkv' | hkv'
            · subst hkv'
              exact absurd ((hkey kv'.1).mpr hw) (by simp [hpk])
            · rw [except_map_error_iff]
              exact ih.mpr ⟨kv', hkv', hw⟩

/-- C8 counterexample: the path `title__foo` contains the name `foo`, which
is unknown to the schema (it occurs nowhere in the metadata and is not an
operator suffix), yet compilation succeeds — producing the dotted key
`title.foo` — instead of failing with `UnknownField`, because path elements
beyond a field with no subfield metadata are passed through unresolved. -/
theorem parse_spec_passthrough_unknown_name :
    ("foo" ∈ exTitleMeta.names → False) ∧
    queryOperators.contains "foo" = false ∧
    parseSpecKey exTitleMeta "title__foo" = Except.ok ("title.foo", none) ∧
    parseSpec exTitleMeta [("title__foo", Val.vInt 1)]
      = Except.ok [("title.foo", QVal.eqv (Val.vInt 1))] := by
  refine ⟨by decide, by decide, rfl, rfl⟩

/-- Witness for C8 (amended) at a concrete metadata, failing key and
passthrough key. -/
theorem parse_spec_unknown_field_iff_witness :
    parseSpecKey exTitleMeta "missing" = Except.error QueryErr.unknownField ∧
    WalkFails exTitleMeta (splitKey "missing").1 ∧
    ¬ WalkFails exTitleMeta (splitKey "title__foo").1 := by
  have h := parse_spec_unknown_field_iff exTitleMeta
  refine ⟨rfl, (h.2.1 "missing").mp rfl, ?_⟩
  intro hw
  have := (h.2.1 "title__foo").mpr hw
  rw [show parseSpecKey exTitleMeta "title__foo" = Except.ok ("title.foo", none) from rfl] at this
  exact absurd this (by simp)

/-! ### Claim C1: lease acquisition as a conditional find-and-modify -/

theorem lockMatch_iff (pkDb : Val) (v now : Int) (d : DbDoc) :
    lockMatch pkDb v now d = true ↔
      dbGet d "_id" = some pkDb ∧
      (∃ t, dbGet d "_mutex" = some (Val.vTime t) ∧ t < now) ∧
      dbGet d "_version" = some (Val.vInt v) := by
  unfold lockMatch
  simp only [Bool.and_eq_true, decide_eq_true_eq]
  constructor
  · rintro ⟨⟨h1, h2⟩, h3⟩
    refine ⟨h1, ?_, h3⟩
    split at h2
    · next t ht => exact ⟨t, ht, by simpa using h2⟩
    · exact absurd h2 (by simp)
  · rintro ⟨h1, ⟨t, ht, hlt⟩, h3⟩
    refine ⟨⟨h1, ?_⟩, h3⟩
    rw [ht]
    simpa using hlt

theorem findAndModifyLock_none (docs : List DbDoc) (pkDb : Val) (v now : Int)
    (h : docs.find? (lockMatch pkDb v now) = none) :
    findAndModifyLock docs pkDb v now = (none, docs) := by
  unfold findAndModifyLock
  rw [h]

theorem findAndModifyLock_some (docs : List DbDoc) (pkDb : Val) (v now : Int)
    (d : DbDoc) (h : docs.find? (lockMatch pkDb v now) = some d) :
    findAndModifyLock docs pkDb v now
      = (some d,
         replaceFirst (lockMatch pkDb v now)
           (fun d0 => dbSet d0 "_mutex" (Val.vTime (now + 30))) docs) := by
  unfold findAndModifyLock
  rw [h]

theorem lockDoc_of_find_none (schema : Schema) (rev snap : Bool) (st : Store)
    (pk pkDb : Val) (v now : Int)
    (h : st.docs.find? (lockMatch pkDb v now) = none) :
    lockDoc schema rev snap st pk pkDb v now = (st, Except.error SaveErr.mutexNotAcquired) := by
  unfold lockDoc
  rw [findAndModifyLock_none st.docs pkDb v now h]

theorem lockDoc_some_nosnap (schema : Schema) (rev snap : Bool) (st : Store)
    (pk pkDb : Val) (v now : Int) (d0 : DbDoc)
    (hf : st.docs.find? (lockMatch pkDb v now) = some d0)
    (hsr : (snap && rev) = false) :
    lockDoc schema rev snap st pk pkDb v now
      = ({ docs := replaceFirst (lockMatch pkDb v now)
             (fun x => dbSet x "_mutex" (Val.vTime (now + 30))) st.docs,
           revisions := st.revisions }, Except.ok d0) := by
  unfold lockDoc
  rw [findAndModifyLock_some st.docs pkDb v now d0 hf]
  show (if (snap && rev) = true then
      match dbGet d0 "_last_update", dbGet d0 "_last_author" with
      | some created, some author =>
          (({ docs := replaceFirst (lockMatch pkDb v now)
                (fun x => dbSet x "_mutex" (Val.vTime (now + 30))) st.docs,
              revisions := upsertRevision st.revisions
                (lockRevision schema pk pkDb v d0 created author) } : Store),
           Except.ok d0)
      | _, _ =>
          (({ docs := replaceFirst (lockMatch pkDb v now)
                (fun x => dbSet x "_mutex" (Val.vTime (now + 30))) st.docs,
              revisions := st.revisions } : Store),
           Except.error SaveErr.keyError)
    else
      (({ docs := replaceFirst (lockMatch pkDb v now)
            (fun x => dbSet x "_mutex" (Val.vTime (now + 30))) st.docs,
          revisions := st.revisions } : Store), Except.ok d0)) = _
  rw [if_neg (by rw [hsr]; simp)]

theorem lockDoc_some_meta (schema : Schema) (rev snap : Bool) (st : Store)
    (pk pkDb : Val) (v now : Int) (d0 : DbDoc) (c a : Val)
    (hf : st.docs.find? (lockMatch pkDb v now) = some d0)
    (hsr : (snap && rev) = true)
    (hcu : dbGet d0 "_last_update" = some c)
    (hca : dbGet d0 "_last_author" = some a) :
    lockDoc schema rev snap st pk pkDb v now
      = ({ docs := replaceFirst (lockMatch pkDb v now)
             (fun x => dbSet x "_mutex" (Val.vTime (now + 30))) st.docs,
           revisions := upsertRevision st.revisions
             (lockRevision schema pk pkDb v d0 c a) }, Except.ok d0) := by
  unfold lockDoc
  rw [findAndModifyLock_some st.docs pkDb v now d0 hf]
  show (if (snap && rev) = true then
      match dbGet d0 "_last_update", dbGet d0 "_last_author" with
      | some created, some author =>
          (({ docs := replaceFirst (lockMatch pkDb v now)
                (fun x => dbSet x "_mutex" (Val.vTime (now + 30))) st.docs,
              revisions := upsertRevision st.revisions
                (lockRevision schema pk pkDb v d0 created author) } : Store),
           Except.ok d0)
      | _, _ =>
          (({ docs := replaceFirst (lockMatch pkDb v now)
                (fun x => dbSet x "_mutex" (Val.vTime (now + 30))) st.docs,
              revisions := st.revisions } : Store),
           Except.error SaveErr.keyError)
    else
      (({ docs := replaceFirst (lockMatch pkDb v now)
            (fun x => dbSet x "_mutex" (Val.vTime (now + 30))) st.docs,
          revisions := st.revisions } : Store), Except.ok d0)) = _
  rw [if_pos hsr, hcu, hca]

theorem lockDoc_some_keyerr (schema : Schema) (rev snap : Bool) (st : Store)
    (pk pkDb : Val) (v now : Int) (d0 : DbDoc)
    (hf : st.docs.find? (lockMatch pkDb v now) = some d0)
    (hsr : (snap && rev) = true)
    (hmiss : dbGet d0 "_last_update" = none ∨ dbGet d0 "_last_author" = none) :
    lockDoc schema rev snap st pk pkDb v now
      = ({ docs := replaceFirst (lockMatch pkDb v now)
             (fun x => dbSet x "_mutex" (Val.vTime (now + 30))) st.docs,
           revisions := st.revisions }, Except.error SaveErr.keyError) := by
  unfold lockDoc
  rw [findAndModifyLock_some st.docs pkDb v now d0 hf]
  show (if (snap && rev) = true then
      match dbGet d0 "_last_update", dbGet d0 "_last_author" with
      | some created, some author =>
          (({ docs := replaceFirst (lockMatch pkDb v now)
                (fun x => dbSet x "_mutex" (Val.vTime (now + 30))) st.docs,
              revisions := upsertRevision st.revisions
                (lockRevision schema pk pkDb v d0 created author) } : Store),
           Except.ok d0)
      | _, _ =>
          (({ docs := replaceFirst (lockMatch pkDb v now)
                (fun x => dbSet x "_mutex" (Val.vTime (now + 30))) st.docs,
              revisions := st.revisions } : Store),
           Except.error SaveErr.keyError)
    else
      (({ docs := replaceFirst (lockMatch pkDb v now)
            (fun x => dbSet x "_mutex" (Val.vTime (now + 30))) st.docs,
          revisions := st.revisions } : Store), Except.ok d0)) = _
  rw [if_pos hsr]
  rcases hmiss with hm | hm
  · rw [hm]
  · rw [hm]
    cases dbGet d0 "_last_update" <;> rfl

theorem lockDoc_of_find_some (schema : Schema) (rev snap : Bool) (st : Store)
    (pk pkDb : Val) (v now : Int) (d : DbDoc)
    (h : st.docs.find? (lockMatch pkDb v now) = some d) :
    (lockDoc schema rev snap st pk pkDb v now).1.docs
      = replaceFirst (lockMatch pkDb v now)
          (fun d0 => dbSet d0 "_mutex" (Val.vTime (now + 30))) st.docs ∧
    ((snap && rev) = false →
       (lockDoc schema rev snap st pk pkDb v now).2 = Except.ok d) ∧
    ((snap && rev) = true →
       ((dbGet d "_last_update").isSome && (dbGet d "_last_author").isSome)
           = true →
       (lockDoc schema rev snap st pk pkDb v now).2 = Except.ok d) := by
  refine ⟨?_, ?_, ?_⟩
  · cases hsr : (snap && rev) with
    | false => rw [lockDoc_some_nosnap schema rev snap st pk pkDb v now d h hsr]
    | true =>
        match hcu : dbGet d "_last_update", hca : dbGet d "_last_author" with
        | some c, some a =>
            rw [lockDoc_some_meta schema rev snap st pk pkDb v now d c a h hsr
              hcu hca]
        | none, none =>
            rw [lockDoc_some_keyerr schema rev snap st pk pkDb v now d h hsr
              (Or.inl hcu)]
        | none, some a =>
            rw [lockDoc_some_keyerr schema rev snap st pk pkDb v now d h hsr
              (Or.inl hcu)]
        | some c, none =>
            rw [lockDoc_some_keyerr schema rev snap st pk pkDb v now d h hsr
              (Or.inr hca)]
  · intro hsr
    rw [lockDoc_some_nosnap schema rev snap st pk pkDb v now d h hsr]
  · intro hsr hmeta
    rw [Bool.and_eq_true, Option.isSome_iff_exists, Option.isSome_iff_exists]
      at hmeta
    obtain ⟨⟨c, hc⟩, ⟨a, ha⟩⟩ := hmeta
    rw [lockDoc_some_meta schema rev snap st pk pkDb v now d c a h hsr hc ha]

theorem lockDoc_ok_spec (schema : Schema) (rev snap : Bool) (st : Store)
    (pk pkDb : Val) (v now : Int) (d : DbDoc)
    (h : (lockDoc schema rev snap st pk pkDb v now).2 = Except.ok d) :
    st.docs.find? (lockMatch pkDb v now) = some d ∧
    (lockDoc schema rev snap st pk pkDb v now).1.docs
      = replaceFirst (lockMatch pkDb v now)
          (fun d0 => dbSet d0 "_mutex" (Val.vTime (now + 30))) st.docs ∧
    ((snap && rev) = false →
       (lockDoc schema rev snap st pk pkDb v now).1.revisions = st.revisions) ∧
    ((snap && rev) = true → ∃ created author,
       dbGet d "_last_update" = some created ∧
       dbGet d "_last_author" = some author ∧
       (lockDoc schema rev snap st pk pkDb v now).1.revisions
         = upsertRevision st.revisions
             (lockRevision schema pk pkDb v d created author)) := by
  match hf : st.docs.find? (lockMatch pkDb v now) with
  | none =>
      rw [lockDoc_of_find_none schema rev snap st pk pkDb v now hf] at h
      exact Except.noConfusion h
  | some d0 =>
      cases hsr : (snap && rev) with
      | false =>
          rw [lockDoc_some_nosnap schema rev snap st pk pkDb v now d0 hf hsr]
            at h
          injection h with hd
          subst hd
          rw [lockDoc_some_nosnap schema rev snap st pk pkDb v now d0 hf hsr]
          exact ⟨rfl, rfl, fun _ => rfl, fun hc => absurd hc (by simp)⟩
      | true =>
          match hcu : dbGet d0 "_last_update", hca : dbGet d0 "_last_author" with
          | some c, some a =>
              rw [lockDoc_some_meta schema rev snap st pk pkDb v now d0 c a hf
                hsr hcu hca] at h
              injection h with hd
              subst hd
              rw [lockDoc_some_meta schema rev snap st pk pkDb v now d0 c a hf
                hsr hcu hca]
              exact ⟨rfl, rfl, fun hc => absurd hc (by simp),
                fun _ => ⟨c, a, hcu, hca, rfl⟩⟩
          | none, none =>
              rw [lockDoc_some_keyerr schema rev snap st pk pkDb v now d0 hf hsr
                (Or.inl hcu)] at h
              exact Except.noConfusion h
          | none, some a =>
              rw [lockDoc_some_keyerr schema rev snap st pk pkDb v now d0 hf hsr
                (Or.inl hcu)] at h
              exact Except.noConfusion h
          | some c, none =>
              rw [lockDoc_some_keyerr schema rev snap st pk pkDb v now d0 hf hsr
                (Or.inr hca)] at h
              exact Except.noConfusion h

theorem save_guard_false (schema : Schema) (vs : Values) :
    (vs.isEmpty && (memPk schema vs).isSome) = false := by
  match vs with
  | _ :: _ => rfl
  | [] =>
      unfold memPk
      match pkField schema with
      | some f => rfl
      | none => rfl

/-- Full characterization of a successful update-path save: how the result
components, the store's documents and the revisions collection are produced
from the prepared document, the lease acquisition and the single commit
update. -/
theorem saveToDb_updated_spec
    (schema : Schema) (rev snap : Bool) (author : Val) (now : Int)
    (mem : MemDoc) (st st' : Store) (mem' : MemDoc) (oldDoc setDoc : DbDoc)
    (huniq : ∀ p : Val,
      st.docs.countP (fun x => decide (dbGet x "_id" = some p)) ≤ 1)
    (hres : saveToDb schema rev snap author now mem st
        = (st', SaveResult.updated mem' oldDoc setDoc)) :
    ∃ v docPrep vs' l1 l2,
      mem.version = some v ∧
      dbPrepare schema mem.values = Except.ok (docPrep, vs') ∧
      mem' = { values := vs', version := some (v + 1) } ∧
      setDoc = dbSet (dbSet (dbSet (dbErase docPrep "_id")
          "_mutex" (Val.vTime (now - 3600)))
          "_last_update" (Val.vTime now))
          "_last_author" author ∧
      lockMatch (pkForDb schema vs') v now oldDoc = true ∧
      st.docs = l1 ++ oldDoc :: l2 ∧
      (∀ x ∈ l1, ¬ dbGet x "_id" = some (pkForDb schema vs')) ∧
      (∀ x ∈ l2, ¬ dbGet x "_id" = some (pkForDb schema vs')) ∧
      st'.docs = l1 ++ commitTransform setDoc
          (dbSet oldDoc "_mutex" (Val.vTime (now + 30))) :: l2 ∧
      ((snap && rev) = false → st'.revisions = st.revisions) ∧
      ((snap && rev) = true → ∃ created author,
         dbGet oldDoc "_last_update" = some created ∧
         dbGet oldDoc "_last_author" = some author ∧
         st'.revisions = upsertRevision st.revisions
           (lockRevision schema ((memPk schema vs').getD Val.null)
             (pkForDb schema vs') v oldDoc created author)) := by
  unfold saveToDb at hres
  rw [save_guard_false] at hres
  rw [if_neg Bool.false_ne_true] at hres
  split at hres
  next e heq => simp at hres
  next docPrep vs0 heq =>
    split at hres
    next hoe => simp at hres
    next hoe =>
      split at hres
      next v hver =>
        split at hres
        next st1 e heq2 => simp at hres
        next st1 d0 heq2 =>
          injection hres with hst hsres
          injection hsres with hmem hold hset
          subst hold
          subst hset
          subst hmem
          subst hst
          have hl2x : (lockDoc schema rev snap st
              ((memPk schema vs0).getD Val.null) (pkForDb schema vs0) v now).2
              = Except.ok d0 := by rw [heq2]
          have hst1 : (lockDoc schema rev snap st
              ((memPk schema vs0).getD Val.null) (pkForDb schema vs0) v now).1
              = st1 := by rw [heq2]
          obtain ⟨hf, hldocs, hrevF, hrevT⟩ := lockDoc_ok_spec schema rev snap st
            ((memPk schema vs0).getD Val.null) (pkForDb schema vs0) v now d0 hl2x
          have hmatch : lockMatch (pkForDb schema vs0) v now d0 = true :=
            List.find?_some hf
          obtain ⟨l1, l2, hdec, hl1f, hrf⟩ :=
            (replaceFirst_spec (lockMatch (pkForDb schema vs0) v now)
              (fun x => dbSet x "_mutex" (Val.vTime (now + 30)))
              st.docs).2 d0 hf
          have hid0 : dbGet d0 "_id" = some (pkForDb schema vs0) :=
            ((lockMatch_iff _ _ _ _).mp hmatch).1
          have hcnt : l1.countP
                (fun x => decide (dbGet x "_id" = some (pkForDb schema vs0))) = 0 ∧
              l2.countP
                (fun x => decide (dbGet x "_id" = some (pkForDb schema vs0))) = 0 := by
            have huq := huniq (pkForDb schema vs0)
            rw [hdec, List.countP_append, List.countP_cons] at huq
            have hd : decide (dbGet d0 "_id" = some (pkForDb schema vs0)) = true := by
              simpa using hid0
            rw [hd] at huq
            simp only [if_true] at huq
            omega
          have hl1 : ∀ x ∈ l1, ¬ dbGet x "_id" = some (pkForDb schema vs0) := by
            intro x hx
            have := (List.countP_eq_zero.mp hcnt.1) x hx
            simpa using this
          have hl2' : ∀ x ∈ l2, ¬ dbGet x "_id" = some (pkForDb schema vs0) := by
            intro x hx
            have := (List.countP_eq_zero.mp hcnt.2) x hx
            simpa using this
          refine ⟨v, docPrep, vs0, l1, l2, hver, heq, rfl, rfl,
            hmatch, hdec, hl1, hl2', ?_, ?_, ?_⟩
          · show commitUpdate st1.docs (pkForDb schema vs0) _ = _
            rw [← hst1, hldocs, hrf]
            unfold commitUpdate
            have hmid : dbGet (dbSet d0 "_mutex" (Val.vTime (now + 30))) "_id"
                = some (pkForDb schema vs0) := by
              rw [dbGet_dbSet_ne d0 "_mutex" "_id" _ (by decide)]
              exact hid0
            rw [replaceFirst_middle _ _ l1 l2 _
              (fun x hx => by simpa using hl1 x hx)
              (by simpa using hmid)]
          · intro hsr
            show st1.revisions = st.revisions
            rw [← hst1]
            exact hrevF hsr
          · intro hsr
            obtain ⟨c, a, hcu, hca, hrev⟩ := hrevT hsr
            refine ⟨c, a, hcu, hca, ?_⟩
            show st1.revisions = _
            rw [← hst1]
            exact hrev
      next hver => simp at hres

/-- C1 (amended): `Document._lock`'s lease acquisition is a single
conditional find-and-modify.  An acquisition only ever succeeds on a stored
document with the given identifier whose stored lease timestamp is strictly
before `now` and whose stored version equals the caller's in-memory version;
such a match guarantees success whenever no snapshot is being written, and
with a snapshot requested on a revisable schema success holds exactly when
the matched document also carries its `_last_update`/`_last_author` metadata
(indexing a missing entry raises KeyError instead, after the lease was
taken).  `_lock` fails with `MutexNotAcquired` leaving the store completely
unchanged precisely when no stored document matches.  A successful
acquisition sets the matched document's stored lease to `now + 30` seconds
(all other stored keys unchanged) and returns its pre-update state.
Consequently, of two racing acquisition attempts with the same identifier
and version, the second fails provided it runs while the first's 30-second
lease is still unexpired; a lease left to expire can be re-acquired. -/
theorem lock_acquisition_semantics (schema : Schema) (rev snap : Bool)
    (st : Store) (pk pkDb : Val) (v now : Int) :
    (((lockDoc schema rev snap st pk pkDb v now).2.isOk = true →
        ∃ d ∈ st.docs, dbGet d "_id" = some pkDb ∧
          (∃ t, dbGet d "_mutex" = some (Val.vTime t) ∧ t < now) ∧
          dbGet d "_version" = some (Val.vInt v)) ∧
      ((∃ d ∈ st.docs, dbGet d "_id" = some pkDb ∧
          (∃ t, dbGet d "_mutex" = some (Val.vTime t) ∧ t < now) ∧
          dbGet d "_version" = some (Val.vInt v)) →
        (snap && rev) = false →
        (lockDoc schema rev snap st pk pkDb v now).2.isOk = true) ∧
      ((snap && rev) = true →
        ((lockDoc schema rev snap st pk pkDb v now).2.isOk = true ↔
          ∃ d, st.docs.find? (lockMatch pkDb v now) = some d ∧
            (dbGet d "_last_update").isSome = true ∧
            (dbGet d "_last_author").isSome = true))) ∧
    (lockDoc schema rev snap st pk pkDb v now
        = (st, Except.error SaveErr.mutexNotAcquired) ↔
      ¬ ∃ d ∈ st.docs, dbGet d "_id" = some pkDb ∧
          (∃ t, dbGet d "_mutex" = some (Val.vTime t) ∧ t < now) ∧
          dbGet d "_version" = some (Val.vInt v)) ∧
    (∀ d, (lockDoc schema rev snap st pk pkDb v now).2 = Except.ok d →
       d ∈ st.docs ∧ dbGet d "_id" = some pkDb ∧
       (∃ t, dbGet d "_mutex" = some (Val.vTime t) ∧ t < now) ∧
       dbGet d "_version" = some (Val.vInt v) ∧
       ∃ d', d' ∈ (lockDoc schema rev snap st pk pkDb v now).1.docs ∧
         dbGet d' "_mutex" = some (Val.vTime (now + 30)) ∧
         ∀ k, k ≠ "_mutex" → dbGet d' k = dbGet d k) ∧
    (∀ (st1 : Store) (d : DbDoc) (t1 t2 : Int),
       st.docs.countP (fun x => decide (dbGet x "_id" = some pkDb)) ≤ 1 →
       lockDoc schema rev snap st pk pkDb v t1 = (st1, Except.ok d) →
       t2 ≤ t1 + 30 →
       (lockDoc schema rev snap st1 pk pkDb v t2).2
         = Except.error SaveErr.mutexNotAcquired) := by
  refine ⟨⟨?_, ?_, ?_⟩, ⟨?_, ?_⟩, ?_, ?_⟩
  · intro h
    match hf : st.docs.find? (lockMatch pkDb v now) with
    | none =>
        rw [lockDoc_of_find_none schema rev snap st pk pkDb v now hf] at h
        exact absurd h (by simp [Except.isOk, Except.toBool])
    | some d =>
        exact ⟨d, List.mem_of_find?_eq_some hf,
          (lockMatch_iff pkDb v now d).mp (List.find?_some hf)⟩
  · rintro ⟨d, hd, hsem⟩ hsr
    have hfs : (st.docs.find? (lockMatch pkDb v now)).isSome := by
      rw [List.find?_isSome]
      exact ⟨d, hd, (lockMatch_iff pkDb v now d).mpr hsem⟩
    match hf : st.docs.find? (lockMatch pkDb v now) with
    | none => rw [hf] at hfs; simp at hfs
    | some d0 =>
        rw [(lockDoc_of_find_some schema rev snap st pk pkDb v now d0 hf).2.1 hsr]
        simp [Except.isOk, Except.toBool]
  · intro hsr
    constructor
    · intro h
      cases h2 : (lockDoc schema rev snap st pk pkDb v now).2 with
      | error e => rw [h2] at h; exact absurd h (by simp [Except.isOk, Except.toBool])
      | ok d =>
          obtain ⟨hf, _, _, hT⟩ :=
            lockDoc_ok_spec schema rev snap st pk pkDb v now d h2
          obtain ⟨c, a, hcu, hca, _⟩ := hT hsr
          exact ⟨d, hf, by rw [hcu]; rfl, by rw [hca]; rfl⟩
    · rintro ⟨d, hf, hcu, hca⟩
      rw [(lockDoc_of_find_some schema rev snap st pk pkDb v now d hf).2.2 hsr
        (by rw [Bool.and_eq_true]; exact ⟨hcu, hca⟩)]
      simp [Except.isOk, Except.toBool]
  · intro hmx
    rintro ⟨d, hd, hsem⟩
    have hfs : (st.docs.find? (lockMatch pkDb v now)).isSome := by
      rw [List.find?_isSome]
      exact ⟨d, hd, (lockMatch_iff pkDb v now d).mpr hsem⟩
    match hf : st.docs.find? (lockMatch pkDb v now) with
    | none => rw [hf] at hfs; simp at hfs
    | some d0 =>
        have h2 : (lockDoc schema rev snap st pk pkDb v now).2
            = Except.error SaveErr.mutexNotAcquired := by rw [hmx]
        cases hsr : (snap && rev) with
        | false =>
            rw [lockDoc_some_nosnap schema rev snap st pk pkDb v now d0 hf hsr]
              at h2
            exact Except.noConfusion h2
        | true =>
            match hcu : dbGet d0 "_last_update", hca : dbGet d0 "_last_author" with
            | some c, some a =>
                rw [lockDoc_some_meta schema rev snap st pk pkDb v now d0 c a hf
                  hsr hcu hca] at h2
                exact Except.noConfusion h2
            | none, none =>
                rw [lockDoc_some_keyerr schema rev snap st pk pkDb v now d0 hf
                  hsr (Or.inl hcu)] at h2
                injection h2 with he
                exact SaveErr.noConfusion he
            | none, some a =>
                rw [lockDoc_some_keyerr schema rev snap st pk pkDb v now d0 hf
                  hsr (Or.inl hcu)] at h2
                injection h2 with he
                exact SaveErr.noConfusion he
            | some c, none =>
                rw [lockDoc_some_keyerr schema rev snap st pk pkDb v now d0 hf
                  hsr (Or.inr hca)] at h2
                injection h2 with he
                exact SaveErr.noConfusion he
  · intro hne
    have hno : ∀ x ∈ st.docs, lockMatch pkDb v now x = false := by
      intro x hx
      rw [← Bool.not_eq_true]
      intro hm
      exact hne ⟨x, hx, (lockMatch_iff pkDb v now x).mp hm⟩
    exact lockDoc_of_find_none schema rev snap st pk pkDb v now
      (find?_eq_none_of_all _ _ hno)
  · intro d hres
    obtain ⟨hf, hdocs, _, _⟩ :=
      lockDoc_ok_spec schema rev snap st pk pkDb v now d hres
    obtain ⟨h1, hm, h3⟩ := (lockMatch_iff pkDb v now d).mp (List.find?_some hf)
    refine ⟨List.mem_of_find?_eq_some hf, h1, hm, h3, ?_⟩
    obtain ⟨l1, l2, hl, _, hrf⟩ := (replaceFirst_spec (lockMatch pkDb v now)
      (fun d0 => dbSet d0 "_mutex" (Val.vTime (now + 30))) st.docs).2 d hf
    refine ⟨dbSet d "_mutex" (Val.vTime (now + 30)), ?_,
      dbGet_dbSet_self d "_mutex" (Val.vTime (now + 30)),
      fun k hk => dbGet_dbSet_ne d "_mutex" k (Val.vTime (now + 30)) hk⟩
    rw [hdocs, hrf]
    exact List.mem_append_right l1 (List.mem_cons_self _ l2)
  · intro st1 d t1 t2 huniq hlock ht
    have hl2 : (lockDoc schema rev snap st pk pkDb v t1).2 = Except.ok d := by
      rw [hlock]
    obtain ⟨hf, hdocsx, _, _⟩ :=
      lockDoc_ok_spec schema rev snap st pk pkDb v t1 d hl2
    obtain ⟨l1, l2, hl, _, hrf⟩ := (replaceFirst_spec (lockMatch pkDb v t1)
      (fun x => dbSet x "_mutex" (Val.vTime (t1 + 30))) st.docs).2 d hf
    have hst1 : st1.docs = l1 ++ dbSet d "_mutex" (Val.vTime (t1 + 30)) :: l2 := by
      have := congrArg Prod.fst hlock
      simp only at this
      rw [← this, hdocsx, hrf]
    obtain ⟨hid0, _, _⟩ := (lockMatch_iff pkDb v t1 d).mp (List.find?_some hf)
    -- the identifier appears exactly once, so no other stored document
    -- can carry it
    have hcnt : l1.countP (fun x => decide (dbGet x "_id" = some pkDb)) = 0 ∧
        l2.countP (fun x => decide (dbGet x "_id" = some pkDb)) = 0 := by
      rw [hl] at huniq
      rw [List.countP_append, List.countP_cons] at huniq
      have : decide (dbGet d "_id" = some pkDb) = true := by simpa using hid0
      rw [this] at huniq
      simp only [if_true] at huniq
      omega
    have hno : ∀ x ∈ st1.docs, lockMatch pkDb v t2 x = false := by
      intro x hx
      rw [hst1] at hx
      rcases List.mem_append.mp hx with hx | hx
      · have := (List.countP_eq_zero.mp hcnt.1) x hx
        simp only [decide_eq_true_eq] at this
        rw [← Bool.not_eq_true]
        intro hm
        exact this ((lockMatch_iff pkDb v t2 x).mp hm).1
      · rcases List.mem_cons.mp hx with hx | hx
        · subst hx
          rw [← Bool.not_eq_true]
          intro hm
          obtain ⟨_, ⟨t, htm, hlt⟩, _⟩ := (lockMatch_iff pkDb v t2 _).mp hm
          rw [dbGet_dbSet_self] at htm
          injection htm with htm
          injection htm with htm
          omega
        · have := (List.countP_eq_zero.mp hcnt.2) x hx
          simp only [decide_eq_true_eq] at this
          rw [← Bool.not_eq_true]
          intro hm
          exact this ((lockMatch_iff pkDb v t2 x).mp hm).1
    have hfind : st1.docs.find? (lockMatch pkDb v t2) = none :=
      find?_eq_none_of_all _ _ hno
    rw [lockDoc_of_find_none schema rev snap st1 pk pkDb v t2 hfind]

/-- Witness for C1 (amended) at a concrete one-document store: the first
acquisition at time 10 succeeds and a second attempt at time 20 (within the
lease window) fails with `MutexNotAcquired`. -/
theorem lock_acquisition_semantics_witness :
    (lockDoc [] false false
      { docs := [[("_id", Val.vInt 1), ("_version", Val.vInt 1), ("_mutex", Val.vTime 0)]],
        revisions := [] }
      (Val.vInt 1) (Val.vInt 1) 1 20).2.isOk = true ∧
    (lockDoc [] false false
      (lockDoc [] false false
        { docs := [[("_id", Val.vInt 1), ("_version", Val.vInt 1), ("_mutex", Val.vTime 0)]],
          revisions := [] }
        (Val.vInt 1) (Val.vInt 1) 1 20).1
      (Val.vInt 1) (Val.vInt 1) 1 40).2 = Except.error SaveErr.mutexNotAcquired := by
  constructor
  · decide
  · exact (lock_acquisition_semantics [] false false
      { docs := [[("_id", Val.vInt 1), ("_version", Val.vInt 1), ("_mutex", Val.vTime 0)]],
        revisions := [] }
      (Val.vInt 1) (Val.vInt 1) 1 20).2.2.2
      (lockDoc [] false false
        { docs := [[("_id", Val.vInt 1), ("_version", Val.vInt 1), ("_mutex", Val.vTime 0)]],
          revisions := [] }
        (Val.vInt 1) (Val.vInt 1) 1 20).1
      [("_id", Val.vInt 1), ("_version", Val.vInt 1), ("_mutex", Val.vTime 0)]
      20 40 (by decide) rfl (by omega)

/-- C1 counterexample: two lease-acquisition attempts carrying the same
identifier and version can BOTH succeed when the second runs after the
first's 30-second lease has expired with no intervening commit — refuting
the unconditional "at most one can acquire the lease". -/
theorem lock_double_acquire_after_expiry :
    (lockDoc [] false false
      { docs := [[("_id", Val.vInt 1), ("_version", Val.vInt 1), ("_mutex", Val.vTime 0)]],
        revisions := [] }
      (Val.vInt 1) (Val.vInt 1) 1 10).2.isOk = true ∧
    (lockDoc [] false false
      (lockDoc [] false false
        { docs := [[("_id", Val.vInt 1), ("_version", Val.vInt 1), ("_mutex", Val.vTime 0)]],
          revisions := [] }
        (Val.vInt 1) (Val.vInt 1) 1 10).1
      (Val.vInt 1) (Val.vInt 1) 1 100).2.isOk = true := by
  exact ⟨by decide, by decide⟩

/-! ### Claim C4: required fields and null values at save time -/

theorem dbPrepare_required_null :
    ∀ (schema : Schema) (vs : Values) (f : FieldSpec),
      (schema.map (fun x => x.name)).Nodup →
      f ∈ schema → f.required = true → f.virtual = false →
      getVal vs f.name = none →
      (∀ vsx : Values, f.preSave none vsx = none) →
      dbPrepare schema vs = Except.error SaveErr.validationError := by
  intro schema
  induction schema with
  | nil => intro vs f _ hf; exact absurd hf (by simp)
  | cons g rest ih =>
      intro vs f hnd hf hreq hvirt hnull hps
      simp only [List.map_cons, List.nodup_cons] at hnd
      rcases List.mem_cons.mp hf with hfg | hfr
      · subst hfg
        simp only [dbPrepare]
        rw [if_neg (by rw [hvirt]; simp)]
        have hpv : prepValue f vs = none := by
          unfold prepValue
          rw [hnull]
          by_cases hnp : f.noPreSave = true
          · rw [if_pos hnp]
          · rw [if_neg hnp]; exact hps vs
        rw [hpv]
        have hval : validateField f none vs = false := by
          unfold validateField
          rw [hreq]
          rfl
        rw [if_neg (by rw [hval]; simp)]
      · by_cases hgv : g.virtual = true
        · simp only [dbPrepare]
          rw [if_pos hgv]
          exact ih vs f hnd.2 hfr hreq hvirt hnull hps
        · have hfn : ¬ f.name = g.name := by
            intro he
            exact hnd.1 (he ▸ List.mem_map_of_mem (fun x => x.name) hfr)
          simp only [dbPrepare]
          rw [if_neg hgv]
          by_cases hval : validateField g (prepValue g vs) vs = true
          · rw [if_pos hval]
            rw [ih (setVal vs g.name (prepValue g vs)) f hnd.2 hfr hreq hvirt
              (by rw [getVal_setVal_ne vs g.name f.name _ hfn]; exact hnull) hps]
          · rw [if_neg hval]

/-- C4 (amended): a null on a required, non-virtual field aborts the save
with `ValidationError` before any store write — provided the field's
pre-save hook leaves the null in place (a required field with a configured
default never fails this way, because the default replaces the null before
validation; a virtual field skips save-time preparation entirely).  The
required check is central: on a null value the variant-specific `validate`
is never consulted, and on a non-null value it is exactly what runs. -/
theorem required_null_save_fails
    (schema : Schema) (rev snap : Bool) (author : Val) (now : Int)
    (mem : MemDoc) (st : Store) (f : FieldSpec)
    (hnd : (schema.map (fun x => x.name)).Nodup)
    (hf : f ∈ schema) (hreq : f.required = true) (hvirt : f.virtual = false)
    (hnull : getVal mem.values f.name = none)
    (hps : ∀ vsx : Values, f.preSave none vsx = none) :
    saveToDb schema rev snap author now mem st
      = (st, SaveResult.failed SaveErr.validationError) ∧
    (∀ (g : FieldSpec) (vs : Values), validateField g none vs = !g.required) ∧
    (∀ (g : FieldSpec) (x : Val) (vs : Values),
      validateField g (some x) vs = g.validate x vs) := by
  refine ⟨?_, fun g vs => rfl, fun g x vs => rfl⟩
  unfold saveToDb
  rw [save_guard_false, if_neg Bool.false_ne_true,
    dbPrepare_required_null schema mem.values f hnd hf hreq hvirt hnull hps]

/-- Witness for C4 (amended) at a concrete schema with a required,
default-free field that is null: the save fails with `ValidationError` and
the store is returned unchanged. -/
theorem required_null_save_fails_witness :
    saveToDb [exPkField, exReqField] false false Val.null 50 exC4Mem exC4St
      = (exC4St, SaveResult.failed SaveErr.validationError) :=
  (required_null_save_fails [exPkField, exReqField] false false Val.null 50
    exC4Mem exC4St exReqField (by decide)
    (List.mem_cons_of_mem exPkField (List.mem_cons_self exReqField []))
    rfl rfl rfl (fun _ => rfl)).1

/-- C4 counterexample: a required field with a default (`note`) and a
required virtual field (`tag`) are both null in the saved document, yet the
save succeeds — no `ValidationError` — and writes the default to the store,
refuting the unconditional claim for every field marked required. -/
theorem required_null_with_default_saves :
    exNoteField.required = true ∧ exNoteField.virtual = false ∧
    getVal exC4Mem.values exNoteField.name = none ∧
    exTagField.required = true ∧ exTagField.virtual = true ∧
    getVal exC4Mem.values exTagField.name = none ∧
    (saveToDb exC4Schema false false Val.null 50 exC4Mem exC4St).2
      ≠ SaveResult.failed SaveErr.validationError ∧
    (saveToDb exC4Schema false false Val.null 50 exC4Mem exC4St).1 ≠ exC4St ∧
    dbGet ((saveToDb exC4Schema false false Val.null 50 exC4Mem exC4St).1.docs.headD [])
      "note" = some (Val.vStr "dflt") := by
  refine ⟨rfl, rfl, rfl, rfl, rfl, rfl, by decide, by decide, by decide⟩

/-! ### Claim C7: the update-path write -/

/-- C7 (amended): the update-path write is a single `{$set, $inc}` update
whose set-map is the FULL prepared document — every non-virtual field
appears in it with its post-pre-save value, a null value is written as a
stored null under `$set` rather than being placed in an unset-map (the
engine issues no `$unset` at all), and every key of the lease-fetched
pre-update document survives the commit. -/
theorem update_write_full_set_map
    (schema : Schema) (rev snap : Bool) (author : Val) (now : Int)
    (mem : MemDoc) (st st' : Store) (mem' : MemDoc) (oldDoc setDoc : DbDoc)
    (hnames : (schema.map (fun f => f.name)).Nodup)
    (hdb : (schema.map (fun f => f.db_name)).Nodup)
    (hmeta : "_mutex" ∉ schema.map (fun f => f.db_name) ∧
             "_last_update" ∉ schema.map (fun f => f.db_name) ∧
             "_last_author" ∉ schema.map (fun f => f.db_name))
    (huniq : ∀ p : Val,
      st.docs.countP (fun x => decide (dbGet x "_id" = some p)) ≤ 1)
    (hres : saveToDb schema rev snap author now mem st
        = (st', SaveResult.updated mem' oldDoc setDoc)) :
    (∀ f ∈ schema, f.virtual = false → f.db_name ≠ "_id" →
        dbGet setDoc f.db_name = some (encodeField f (getVal mem'.values f.name))) ∧
    (∀ f ∈ schema, f.virtual = false → f.db_name ≠ "_id" →
        getVal mem'.values f.name = none → dbGet setDoc f.db_name = some Val.null) ∧
    (∃ dNew ∈ st'.docs, dbGet dNew "_id" = dbGet oldDoc "_id" ∧
        ∀ k : String, (dbGet oldDoc k).isSome = true → (dbGet dNew k).isSome = true) := by
  obtain ⟨v, docPrep, vs', l1, l2, hver, hprep, hmem, hset, hmatch, hdec,
    hl1, hl2, hdocs, hrevF, hrevT⟩ :=
    saveToDb_updated_spec schema rev snap author now mem st st' mem' oldDoc setDoc
      huniq hres
  obtain ⟨hp1, hp2, hp3, hp4⟩ := dbPrepare_spec schema mem.values docPrep vs'
    hnames hdb hprep
  have hsetget : ∀ f ∈ schema, f.virtual = false → f.db_name ≠ "_id" →
      dbGet setDoc f.db_name = some (encodeField f (getVal vs' f.name)) := by
    intro f hf hfv hfid
    rw [hset]
    rw [dbGet_dbSet_ne _ "_last_author" f.db_name _
      (dbname_ne_of_not_mem schema f hf _ hmeta.2.2)]
    rw [dbGet_dbSet_ne _ "_last_update" f.db_name _
      (dbname_ne_of_not_mem schema f hf _ hmeta.2.1)]
    rw [dbGet_dbSet_ne _ "_mutex" f.db_name _
      (dbname_ne_of_not_mem schema f hf _ hmeta.1)]
    rw [dbGet_dbErase_ne docPrep "_id" f.db_name hfid]
    exact hp1 f hf hfv
  refine ⟨?_, ?_, ?_⟩
  · intro f hf hfv hfid
    rw [hmem]
    exact hsetget f hf hfv hfid
  · intro f hf hfv hfid hnone
    have := hsetget f hf hfv hfid
    rw [hmem] at hnone
    rw [hnone] at this
    exact this
  · refine ⟨commitTransform setDoc (dbSet oldDoc "_mutex" (Val.vTime (now + 30))),
      by rw [hdocs]; exact List.mem_append_right l1 (List.mem_cons_self _ l2), ?_, ?_⟩
    · -- the identifier is never part of the set-map, so it survives
      have hsid : dbGet setDoc "_id" = none := by
        rw [hset]
        rw [dbGet_dbSet_ne _ "_last_author" "_id" _ (by decide)]
        rw [dbGet_dbSet_ne _ "_last_update" "_id" _ (by decide)]
        rw [dbGet_dbSet_ne _ "_mutex" "_id" _ (by decide)]
        exact dbGet_dbErase_self docPrep "_id"
      unfold commitTransform
      rw [dbGet_dbSet_ne _ "_version" "_id" _ (by decide)]
      rw [dbGet_applySet_of_get_none setDoc _ "_id" hsid]
      rw [dbGet_dbSet_ne _ "_mutex" "_id" _ (by decide)]
    · intro k hk
      unfold commitTransform
      apply dbGet_isSome_dbSet
      apply dbGet_isSome_applySet
      apply dbGet_isSome_dbSet
      exact hk

/-- C7 counterexample: on a successful update the applied `$set` map holds
the unchanged field `title` (so the write is not a delta against the
lease-fetched state) and maps the null-valued field `note` to a stored null
— there is no unset-map — and the committed document still carries `note`
(as null) rather than having it removed. -/
theorem update_write_not_a_delta :
    (saveToDb exC7Schema false false Val.null 50 exC7Mem exC7St).2.setMap
      = some [("title", Val.vStr "a"), ("note", Val.null),
              ("_mutex", Val.vTime (-3550)), ("_last_update", Val.vTime 50),
              ("_last_author", Val.null)] ∧
    (saveToDb exC7Schema false false Val.null 50 exC7Mem exC7St).2.leaseFetched
      = some [("_id", Val.vInt 7), ("_version", Val.vInt 1), ("_mutex", Val.vTime 0),
              ("title", Val.vStr "a"), ("note", Val.vStr "old")] ∧
    dbGet ((saveToDb exC7Schema false false Val.null 50 exC7Mem exC7St).1.docs.headD [])
      "note" = some Val.null := by
  exact ⟨by decide, by decide, by decide⟩

/-- Witness for C7 (amended) at the concrete example: the null-valued
`note` field lands in the set-map as a stored null. -/
theorem update_write_full_set_map_witness :
    dbGet [("title", Val.vStr "a"), ("note", Val.null),
           ("_mutex", Val.vTime (-3550)), ("_last_update", Val.vTime 50),
           ("_last_author", Val.null)] "note" = some Val.null := by
  have h := update_write_full_set_map exC7Schema false false Val.null 50
    exC7Mem exC7St
    { docs := [[("_id", Val.vInt 7), ("_version", Val.vInt 2),
                ("_mutex", Val.vTime (-3550)), ("title", Val.vStr "a"),
                ("note", Val.null), ("_last_update", Val.vTime 50),
                ("_last_author", Val.null)]]
      revisions := [] }
    { values := [("pk", Val.vInt 7), ("title", Val.vStr "a")], version := some 2 }
    [("_id", Val.vInt 7), ("_version", Val.vInt 1), ("_mutex", Val.vTime 0),
     ("title", Val.vStr "a"), ("note", Val.vStr "old")]
    [("title", Val.vStr "a"), ("note", Val.null), ("_mutex", Val.vTime (-3550)),
     ("_last_update", Val.vTime 50), ("_last_author", Val.null)]
    (by decide) (by decide) ⟨by decide, by decide, by decide⟩
    (fun p => le_trans (List.countP_le_length _) (by decide))
    (by decide)
  exact h.2.1 (plainField "note" "note" false false none)
    (List.mem_cons_of_mem _ (List.mem_cons_of_mem _ (List.mem_cons_self _ [])))
    rfl (by decide) rfl

/-! ### Claim C2: version increment and read-back round-trip -/

/-- C2: for every successful update-path save, the stored version after the
save (observed by re-reading the document from the store) equals the
in-memory version before the save plus one, the in-memory version is
incremented to match, and re-reading the document yields values identical to
the in-memory state at save time on every persisted (non-virtual) field.
The encoding hypotheses say that the schema's store encoders round-trip and
never encode a present value as a stored null, and that in-memory values and
pre-save hooks never produce an explicit null value (the engine represents
null by absence). -/
theorem update_save_version_and_roundtrip
    (schema : Schema) (rev snap : Bool) (author : Val) (now : Int)
    (mem : MemDoc) (st st' : Store) (mem' : MemDoc) (oldDoc setDoc : DbDoc) (v : Int)
    (hver : mem.version = some v)
    (hnames : (schema.map (fun f => f.name)).Nodup)
    (hdb : (schema.map (fun f => f.db_name)).Nodup)
    (hmeta : "_version" ∉ schema.map (fun f => f.db_name) ∧
             "_mutex" ∉ schema.map (fun f => f.db_name) ∧
             "_last_update" ∉ schema.map (fun f => f.db_name) ∧
             "_last_author" ∉ schema.map (fun f => f.db_name))
    (hround : ∀ f ∈ schema, ∀ x : Val, x ≠ Val.null → f.fromStore (f.toStore x) = x)
    (hnn : ∀ f ∈ schema, ∀ x : Val, x ≠ Val.null → f.toStore x ≠ Val.null)
    (hwf : ∀ f ∈ schema, getVal mem.values f.name ≠ some Val.null)
    (hpsn : ∀ f ∈ schema, ∀ vsx : Values,
      f.preSave (getVal mem.values f.name) vsx ≠ some Val.null)
    (huniq : ∀ p : Val,
      st.docs.countP (fun x => decide (dbGet x "_id" = some p)) ≤ 1)
    (hkeys : ∀ d ∈ st.docs, (d.map Prod.fst).Nodup)
    (hres : saveToDb schema rev snap author now mem st
        = (st', SaveResult.updated mem' oldDoc setDoc)) :
    mem'.version = some (v + 1) ∧
    dbGet oldDoc "_version" = some (Val.vInt v) ∧
    ∃ pkv, dbGet oldDoc "_id" = some pkv ∧
      ∃ memR, refresh schema st' pkv = Except.ok memR ∧
        memR.version = some (v + 1) ∧
        ∀ f ∈ schema, f.virtual = false →
          getVal memR.values f.name = getVal mem'.values f.name := by
  obtain ⟨v0, docPrep, vs', l1, l2, hver0, hprep, hmem, hset, hmatch, hdec,
    hl1, hl2, hdocs, hrevF, hrevT⟩ :=
    saveToDb_updated_spec schema rev snap author now mem st st' mem' oldDoc setDoc
      huniq hres
  rw [hver] at hver0
  injection hver0 with hv0
  subst hv0
  obtain ⟨hp1, hp2, hp3, hp4⟩ := dbPrepare_spec schema mem.values docPrep vs'
    hnames hdb hprep
  obtain ⟨hid, hmut, hverold⟩ := (lockMatch_iff _ _ _ _).mp hmatch
  -- the prepared document never carries the engine metadata keys
  have hprepmeta : ∀ k : String, k ∉ schema.map (fun f => f.db_name) →
      dbGet docPrep k = none := by
    intro k hk
    apply dbGet_eq_none_of_not_mem
    rw [hp3]
    intro hmemk
    exact hk ((List.Sublist.map (fun f => f.db_name)
      (List.filter_sublist schema)).subset hmemk)
  have hsid : dbGet setDoc "_id" = none := by
    rw [hset]
    rw [dbGet_dbSet_ne _ "_last_author" "_id" _ (by decide)]
    rw [dbGet_dbSet_ne _ "_last_update" "_id" _ (by decide)]
    rw [dbGet_dbSet_ne _ "_mutex" "_id" _ (by decide)]
    exact dbGet_dbErase_self docPrep "_id"
  have hsver : dbGet setDoc "_version" = none := by
    rw [hset]
    rw [dbGet_dbSet_ne _ "_last_author" "_version" _ (by decide)]
    rw [dbGet_dbSet_ne _ "_last_update" "_version" _ (by decide)]
    rw [dbGet_dbSet_ne _ "_mutex" "_version" _ (by decide)]
    rw [dbGet_dbErase_ne docPrep "_id" "_version" (by decide)]
    exact hprepmeta "_version" hmeta.1
  have hsetget : ∀ f ∈ schema, f.virtual = false → f.db_name ≠ "_id" →
      dbGet setDoc f.db_name = some (encodeField f (getVal vs' f.name)) := by
    intro f hf hfv hfid
    rw [hset]
    rw [dbGet_dbSet_ne _ "_last_author" f.db_name _
      (dbname_ne_of_not_mem schema f hf _ hmeta.2.2.2)]
    rw [dbGet_dbSet_ne _ "_last_update" f.db_name _
      (dbname_ne_of_not_mem schema f hf _ hmeta.2.2.1)]
    rw [dbGet_dbSet_ne _ "_mutex" f.db_name _
      (dbname_ne_of_not_mem schema f hf _ hmeta.2.1)]
    rw [dbGet_dbErase_ne docPrep "_id" f.db_name hfid]
    exact hp1 f hf hfv
  have hsetnd : (setDoc.map Prod.fst).Nodup := by
    rw [hset]
    apply dbSet_keys_nodup
    apply dbSet_keys_nodup
    apply dbSet_keys_nodup
    apply dbErase_keys_nodup
    rw [hp3]
    exact List.Nodup.sublist
      (List.Sublist.map (fun f => f.db_name) (List.filter_sublist schema)) hdb
  have holdmem : oldDoc ∈ st.docs := by
    rw [hdec]
    exact List.mem_append_right l1 (List.mem_cons_self _ l2)
  have holdnd : (oldDoc.map Prod.fst).Nodup := hkeys oldDoc holdmem
  have hdnewnd : ((commitTransform setDoc
      (dbSet oldDoc "_mutex" (Val.vTime (now + 30)))).map Prod.fst).Nodup := by
    unfold commitTransform
    apply dbSet_keys_nodup
    apply applySet_keys_nodup
    apply dbSet_keys_nodup
    exact holdnd
  have hdnewid : dbGet (commitTransform setDoc
      (dbSet oldDoc "_mutex" (Val.vTime (now + 30)))) "_id"
      = some (pkForDb schema vs') := by
    unfold commitTransform
    rw [dbGet_dbSet_ne _ "_version" "_id" _ (by decide)]
    rw [dbGet_applySet_of_get_none setDoc _ "_id" hsid]
    rw [dbGet_dbSet_ne _ "_mutex" "_id" _ (by decide)]
    exact hid
  have hd2ver : dbGet (applySet (dbSet oldDoc "_mutex" (Val.vTime (now + 30))) setDoc)
      "_version" = some (Val.vInt v) := by
    rw [dbGet_applySet_of_get_none setDoc _ "_version" hsver]
    rw [dbGet_dbSet_ne _ "_mutex" "_version" _ (by decide)]
    exact hverold
  have hdnewver : dbGet (commitTransform setDoc
      (dbSet oldDoc "_mutex" (Val.vTime (now + 30)))) "_version"
      = some (Val.vInt (v + 1)) := by
    unfold commitTransform
    rw [dbGet_dbSet_self, hd2ver]
  have hkey : ∀ f ∈ schema, f.virtual = false →
      dbGet (commitTransform setDoc
        (dbSet oldDoc "_mutex" (Val.vTime (now + 30)))) f.db_name
        = some (encodeField f (getVal vs' f.name)) := by
    intro f hf hfv
    by_cases hfid : f.db_name = "_id"
    · have hpk : pkField schema = some f := by
        show getFieldByDbName schema "_id" = some f
        rw [← hfid]
        exact getFieldByDbName_self schema f hdb hf
      have hpkv : pkForDb schema vs' = encodeField f (getVal vs' f.name) := by
        unfold pkForDb
        rw [hpk]
        show (match getVal vs' f.name with
              | some w => f.toStore w
              | none => Val.null) = encodeField f (getVal vs' f.name)
        cases hgv : getVal vs' f.name <;> rfl
      rw [hfid, hdnewid, hpkv]
    · have hfver := dbname_ne_of_not_mem schema f hf _ hmeta.1
      unfold commitTransform
      rw [dbGet_dbSet_ne _ "_version" f.db_name _ hfver]
      exact dbGet_applySet_of_get_some setDoc _ f.db_name _ hsetnd
        (hsetget f hf hfv hfid)
  have hnonull : ∀ f ∈ schema, f.virtual = false →
      getVal vs' f.name ≠ some Val.null := by
    intro f hf hfv hcon
    rcases hp4 f hf hfv with h4 | ⟨vsx, h4⟩
    · rw [h4] at hcon
      exact hwf f hf hcon
    · rw [h4] at hcon
      exact hpsn f hf vsx hcon
  have hfind : st'.docs.find?
      (fun d => dbGet d "_id" = some (pkForDb schema vs'))
      = some (commitTransform setDoc
          (dbSet oldDoc "_mutex" (Val.vTime (now + 30)))) := by
    rw [hdocs]
    apply find?_middle
    · intro x hx
      simpa using hl1 x hx
    · simpa using hdnewid
  refine ⟨by rw [hmem], hverold, pkForDb schema vs', hid,
    { values := (commitTransform setDoc
        (dbSet oldDoc "_mutex" (Val.vTime (now + 30)))).foldl (readStep schema) []
      version := some (v + 1) }, ?_, rfl, ?_⟩
  · unfold refresh
    rw [hfind]
    show setFromDb schema (commitTransform setDoc
        (dbSet oldDoc "_mutex" (Val.vTime (now + 30)))) = _
    unfold setFromDb
    rw [hdnewver]
  · intro f hf hfv
    show getVal ((commitTransform setDoc
        (dbSet oldDoc "_mutex" (Val.vTime (now + 30)))).foldl (readStep schema) [])
        f.name = getVal mem'.values f.name
    rw [readVals_get schema f hnames hdb hf _ [] hdnewnd]
    rw [hkey f hf hfv]
    rw [hmem]
    show (match some (encodeField f (getVal vs' f.name)) with
          | none => getVal ([] : Values) f.name
          | some Val.null => getVal ([] : Values) f.name
          | some w => some (f.fromStore w))
        = getVal vs' f.name
    match hgv : getVal vs' f.name with
    | none => rfl
    | some x =>
        have hx : x ≠ Val.null := by
          intro he
          exact hnonull f hf hfv (by rw [hgv, he])
        have htx := hnn f hf x hx
        show (match some (f.toStore x) with
              | none => getVal ([] : Values) f.name
              | some Val.null => getVal ([] : Values) f.name
              | some w => some (f.fromStore w))
            = some x
        match htv : f.toStore x with
        | Val.null => exact absurd htv htx
        | Val.vInt n =>
            show some (f.fromStore (Val.vInt n)) = some x
            rw [← htv, hround f hf x hx]
        | Val.vStr sx =>
            show some (f.fromStore (Val.vStr sx)) = some x
            rw [← htv, hround f hf x hx]
        | Val.vBool b =>
            show some (f.fromStore (Val.vBool b)) = some x
            rw [← htv, hround f hf x hx]
        | Val.vTime t =>
            show some (f.fromStore (Val.vTime t)) = some x
            rw [← htv, hround f hf x hx]

/-- Witness for C2 at the concrete example: saving bumps the in-memory
version from 1 to 2, the re-read document reports version 2, and every
persisted field reads back with its in-memory value at save time. -/
theorem update_save_version_and_roundtrip_witness :
    ({ values := [("pk", Val.vInt 7), ("title", Val.vStr "a")],
       version := some 2 } : MemDoc).version = some 2 ∧
    ∃ pkv, dbGet [("_id", Val.vInt 7), ("_version", Val.vInt 1),
        ("_mutex", Val.vTime 0), ("title", Val.vStr "a"),
        ("note", Val.vStr "old")] "_id" = some pkv ∧
      ∃ memR, refresh exC7Schema
          { docs := [[("_id", Val.vInt 7), ("_version", Val.vInt 2),
                      ("_mutex", Val.vTime (-3550)), ("title", Val.vStr "a"),
                      ("note", Val.null), ("_last_update", Val.vTime 50),
                      ("_last_author", Val.null)]]
            revisions := [] } pkv = Except.ok memR ∧
        memR.version = some 2 ∧
        ∀ f ∈ exC7Schema, f.virtual = false →
          getVal memR.values f.name
            = getVal [("pk", Val.vInt 7), ("title", Val.vStr "a")] f.name := by
  have h := update_save_version_and_roundtrip exC7Schema false false Val.null 50
    exC7Mem exC7St
    { docs := [[("_id", Val.vInt 7), ("_version", Val.vInt 2),
                ("_mutex", Val.vTime (-3550)), ("title", Val.vStr "a"),
                ("note", Val.null), ("_last_update", Val.vTime 50),
                ("_last_author", Val.null)]]
      revisions := [] }
    { values := [("pk", Val.vInt 7), ("title", Val.vStr "a")], version := some 2 }
    [("_id", Val.vInt 7), ("_version", Val.vInt 1), ("_mutex", Val.vTime 0),
     ("title", Val.vStr "a"), ("note", Val.vStr "old")]
    [("title", Val.vStr "a"), ("note", Val.null), ("_mutex", Val.vTime (-3550)),
     ("_last_update", Val.vTime 50), ("_last_author", Val.null)]
    1 rfl (by decide) (by decide)
    ⟨by decide, by decide, by decide, by decide⟩
    (by
      intro f hf x hx
      rcases List.mem_cons.mp hf with rfl | hf
      · rfl
      rcases List.mem_cons.mp hf with rfl | hf
      · rfl
      rcases List.mem_cons.mp hf with rfl | hf
      · rfl
      exact absurd hf (List.not_mem_nil f))
    (by
      intro f hf x hx
      rcases List.mem_cons.mp hf with rfl | hf
      · exact hx
      rcases List.mem_cons.mp hf with rfl | hf
      · exact hx
      rcases List.mem_cons.mp hf with rfl | hf
      · exact hx
      exact absurd hf (List.not_mem_nil f))
    (by
      intro f hf
      rcases List.mem_cons.mp hf with rfl | hf
      · decide
      rcases List.mem_cons.mp hf with rfl | hf
      · decide
      rcases List.mem_cons.mp hf with rfl | hf
      · decide
      exact absurd hf (List.not_mem_nil f))
    (by
      intro f hf vsx
      rcases List.mem_cons.mp hf with rfl | hf
      · intro hc; injection hc with h; exact Val.noConfusion h
      rcases List.mem_cons.mp hf with rfl | hf
      · intro hc; injection hc with h; exact Val.noConfusion h
      rcases List.mem_cons.mp hf with rfl | hf
      · intro hc; exact Option.noConfusion hc
      exact absurd hf (List.not_mem_nil f))
    (fun p => le_trans (List.countP_le_length _) (by decide))
    (by
      intro d hd
      rcases List.mem_cons.mp hd with rfl | hd
      · decide
      exact absurd hd (List.not_mem_nil d))
    (by decide)
  exact ⟨h.1, h.2.2⟩

/-! ### Claim C5: revision snapshots under sequential updates -/

theorem intRange_length (n : Nat) : ∀ v0 : Int, (intRange v0 n).length = n := by
  induction n with
  | zero => intro v0; rfl
  | succ n ih => intro v0; simp [intRange, ih]

theorem mem_intRange (n : Nat) :
    ∀ v0 w : Int, w ∈ intRange v0 n ↔ v0 ≤ w ∧ w < v0 + n := by
  induction n with
  | zero =>
      intro v0 w
      simp only [intRange, List.not_mem_nil, false_iff]
      omega
  | succ n ih =>
      intro v0 w
      simp only [intRange, List.mem_cons, ih]
      omega

theorem intRange_nodup (n : Nat) : ∀ v0 : Int, (intRange v0 n).Nodup := by
  induction n with
  | zero => intro v0; simp [intRange]
  | succ n ih =>
      intro v0
      simp only [intRange, List.nodup_cons]
      refine ⟨fun hmem => ?_, ih (v0 + 1)⟩
      have := (mem_intRange n (v0 + 1) v0).mp hmem
      omega

theorem upsertRevision_append (rs : List RevisionRec) (r : RevisionRec)
    (h : r.rid ∉ rs.map RevisionRec.rid) : upsertRevision rs r = rs ++ [r] := by
  induction rs with
  | nil => rfl
  | cons x xs ih =>
      simp only [List.map_cons, List.mem_cons, not_or] at h
      simp only [upsertRevision]
      rw [if_neg (fun he => h.1 he.symm), ih h.2]
      rfl

theorem upsertRevision_idem (rs : List RevisionRec) (r : RevisionRec) :
    upsertRevision (upsertRevision rs r) r = upsertRevision rs r := by
  induction rs with
  | nil => simp [upsertRevision]
  | cons x xs ih =>
      by_cases hx : x.rid = r.rid
      · simp [upsertRevision, hx]
      · simp only [upsertRevision, if_neg hx, ih]

theorem countP_id_replace (l1 l2 : List DbDoc) (d d' : DbDoc)
    (h : dbGet d' "_id" = dbGet d "_id") (p : Val) :
    (l1 ++ d' :: l2).countP (fun x => decide (dbGet x "_id" = some p))
      = (l1 ++ d :: l2).countP (fun x => decide (dbGet x "_id" = some p)) := by
  simp [List.countP_append, List.countP_cons, h]

theorem dbGet_id_setDoc_none (docPrep : DbDoc) (author : Val) (now : Int) :
    dbGet (dbSet (dbSet (dbSet (dbErase docPrep "_id")
        "_mutex" (Val.vTime (now - 3600)))
        "_last_update" (Val.vTime now))
        "_last_author" author) "_id" = none := by
  rw [dbGet_dbSet_ne _ _ _ _ (by decide), dbGet_dbSet_ne _ _ _ _ (by decide),
      dbGet_dbSet_ne _ _ _ _ (by decide), dbGet_dbErase_self]

theorem dbGet_commit_id (s d : DbDoc) (hs : dbGet s "_id" = none) :
    dbGet (commitTransform s d) "_id" = dbGet d "_id" := by
  unfold commitTransform
  rw [dbGet_dbSet_ne _ _ _ _ (by decide)]
  exact dbGet_applySet_of_get_none s d "_id" hs

theorem dbPrepare_pk_preserved (schema : Schema) (vs : Values)
    (docPrep : DbDoc) (vs' : Values) (fpk : FieldSpec)
    (hnames : (schema.map (fun f => f.name)).Nodup)
    (hdb : (schema.map (fun f => f.db_name)).Nodup)
    (hpkf : pkField schema = some fpk)
    (hpkv : fpk.virtual = false)
    (hpkid : ∀ (ov : Option Val) (vsx : Values), fpk.preSave ov vsx = ov)
    (hprep : dbPrepare schema vs = Except.ok (docPrep, vs')) :
    getVal vs' fpk.name = getVal vs fpk.name := by
  have hmem : fpk ∈ schema := List.mem_of_find?_eq_some hpkf
  have h := (dbPrepare_spec schema vs docPrep vs' hnames hdb hprep).2.2.2 fpk hmem hpkv
  rcases h with h | ⟨vsx, h⟩
  · exact h
  · rw [hpkid] at h
    exact h

theorem saveSeq_spec (schema : Schema) (fpk : FieldSpec) (author : Val)
    (hnames : (schema.map (fun f => f.name)).Nodup)
    (hdb : (schema.map (fun f => f.db_name)).Nodup)
    (hpkf : pkField schema = some fpk)
    (hpkv : fpk.virtual = false)
    (hpkid : ∀ (ov : Option Val) (vsx : Values), fpk.preSave ov vsx = ov) :
    ∀ (N : Nat) (now v0 : Int) (mem memN : MemDoc) (st stN : Store),
      mem.version = some v0 →
      (∀ p : Val, st.docs.countP (fun x => decide (dbGet x "_id" = some p)) ≤ 1) →
      (∀ w ∈ intRange v0 N,
        revisionKey ((getVal mem.values fpk.name).getD Val.null) w
          ∉ st.revisions.map RevisionRec.rid) →
      (∀ w1 ∈ intRange v0 N, ∀ w2 ∈ intRange v0 N,
        revisionKey ((getVal mem.values fpk.name).getD Val.null) w1
          = revisionKey ((getVal mem.values fpk.name).getD Val.null) w2 → w1 = w2) →
      saveSeq schema author N now mem st = some (stN, memN) →
      memN.version = some (v0 + N) ∧
      getVal memN.values fpk.name = getVal mem.values fpk.name ∧
      ∃ newrecs : List RevisionRec,
        stN.revisions = st.revisions ++ newrecs ∧
        newrecs.map RevisionRec.version = intRange v0 N ∧
        newrecs.map RevisionRec.rid
          = (intRange v0 N).map
              (fun w => revisionKey ((getVal mem.values fpk.name).getD Val.null) w) ∧
        List.Forall₂ (fun w r => ∃ pkDb oldDoc created author,
            r = lockRevision schema ((getVal mem.values fpk.name).getD Val.null)
              pkDb w oldDoc created author ∧
            dbGet oldDoc "_id" = some pkDb ∧
            dbGet oldDoc "_version" = some (Val.vInt w) ∧
            dbGet oldDoc "_last_update" = some created ∧
            dbGet oldDoc "_last_author" = some author)
          (intRange v0 N) newrecs := by
  intro N
  induction N with
  | zero =>
      intro now v0 mem memN st stN hver huniq hfresh hinj hres
      simp only [saveSeq] at hres
      injection hres with hres
      injection hres with h1 h2
      subst h1
      subst h2
      refine ⟨by simp [hver], rfl, [], (List.append_nil _).symm, rfl, rfl,
        List.Forall₂.nil⟩
  | succ n ih =>
      intro now v0 mem memN st stN hver huniq hfresh hinj hres
      simp only [saveSeq] at hres
      cases hsave : saveToDb schema true true author now mem st with
      | mk st' sres =>
        rw [hsave] at hres
        cases sres with
        | noop => exact Option.noConfusion hres
        | failed e => exact Option.noConfusion hres
        | inserted m => exact Option.noConfusion hres
        | updated mem' oldD setD =>
          have hres' : saveSeq schema author n (now + 100) mem' st'
              = some (stN, memN) := hres
          obtain ⟨v, docPrep, vs', l1, l2, hv, hprep, hmem', hset, hlock, hdocs,
              hl1, hl2, hdocs', hrevF, hrevT⟩ :=
            saveToDb_updated_spec schema true true author now mem st st' mem'
              oldD setD huniq hsave
          rw [hver] at hv
          injection hv with hv
          subst hv
          have hpkpres : getVal vs' fpk.name = getVal mem.values fpk.name :=
            dbPrepare_pk_preserved schema mem.values docPrep vs' fpk hnames hdb
              hpkf hpkv hpkid hprep
          have hpkmem' : getVal mem'.values fpk.name = getVal mem.values fpk.name := by
            rw [hmem']
            exact hpkpres
          have hmemPk : (memPk schema vs').getD Val.null
              = (getVal mem.values fpk.name).getD Val.null := by
            simp only [memPk, hpkf, hpkpres]
          have hlm := (lockMatch_iff (pkForDb schema vs') v0 now oldD).mp hlock
          obtain ⟨hid, ⟨t, hmut, hlt⟩, hverOld⟩ := hlm
          obtain ⟨cmeta, ameta, hcu, hca, hrevs'⟩ := hrevT rfl
          have hrevstep : st'.revisions = st.revisions ++
              [lockRevision schema ((getVal mem.values fpk.name).getD Val.null)
                (pkForDb schema vs') v0 oldD cmeta ameta] := by
            rw [hrevs', hmemPk]
            exact upsertRevision_append _ _
              (hfresh v0 (List.mem_cons_self _ _))
          have huniq' : ∀ p : Val,
              st'.docs.countP (fun x => decide (dbGet x "_id" = some p)) ≤ 1 := by
            intro p
            have hidnew : dbGet (commitTransform setD
                (dbSet oldD "_mutex" (Val.vTime (now + 30)))) "_id"
                = dbGet oldD "_id" := by
              rw [dbGet_commit_id _ _ (by
                rw [hset]; exact dbGet_id_setDoc_none docPrep author now)]
              exact dbGet_dbSet_ne _ _ _ _ (by decide)
            rw [hdocs', countP_id_replace l1 l2 oldD _ hidnew p, ← hdocs]
            exact huniq p
          have hver' : mem'.version = some (v0 + 1) := by rw [hmem']
          have hfresh' : ∀ w ∈ intRange (v0 + 1) n,
              revisionKey ((getVal mem'.values fpk.name).getD Val.null) w
                ∉ st'.revisions.map RevisionRec.rid := by
            intro w hw hmemb
            rw [hpkmem', hrevstep] at hmemb
            rw [List.map_append] at hmemb
            rcases List.mem_append.mp hmemb with hmemb | hmemb
            · exact hfresh w (List.mem_cons_of_mem _ hw) hmemb
            · have hkeq : revisionKey ((getVal mem.values fpk.name).getD Val.null) w
                  = revisionKey ((getVal mem.values fpk.name).getD Val.null) v0 := by
                simpa [lockRevision] using hmemb
              have hw0 : w = v0 := hinj w (List.mem_cons_of_mem _ hw) v0
                (List.mem_cons_self _ _) hkeq
              have := (mem_intRange n (v0 + 1) w).mp hw
              omega
          have hinj' : ∀ w1 ∈ intRange (v0 + 1) n, ∀ w2 ∈ intRange (v0 + 1) n,
              revisionKey ((getVal mem'.values fpk.name).getD Val.null) w1
                = revisionKey ((getVal mem'.values fpk.name).getD Val.null) w2 →
                w1 = w2 := by
            intro w1 h1 w2 h2 he
            rw [hpkmem'] at he
            exact hinj w1 (List.mem_cons_of_mem _ h1) w2
              (List.mem_cons_of_mem _ h2) he
          obtain ⟨ihv, ihpk, newrecs', ihrev, ihvers, ihrids, ihfa⟩ :=
            ih (now + 100) (v0 + 1) mem' memN st' stN hver' huniq' hfresh'
              hinj' hres'
          rw [hpkmem'] at ihpk ihrids ihfa
          refine ⟨?_, ?_,
            lockRevision schema ((getVal mem.values fpk.name).getD Val.null)
              (pkForDb schema vs') v0 oldD cmeta ameta :: newrecs', ?_, ?_, ?_, ?_⟩
          · rw [ihv]
            congr 1
            push_cast
            ring
          · rw [ihpk]
          · rw [ihrev, hrevstep, List.append_assoc, List.singleton_append]
          · simp only [List.map_cons, ihvers, intRange]
            rfl
          · simp only [List.map_cons, ihrids, intRange, List.map_cons]
            rfl
          · show List.Forall₂ _ (v0 :: intRange (v0 + 1) n) _
            exact List.Forall₂.cons
              ⟨pkForDb schema vs', oldD, cmeta, ameta, rfl, hid, hverOld,
                hcu, hca⟩ ihfa

/-- C5 (amended): on the update path with a snapshot requested on a revisable
schema, each save writes one revision record through an idempotent upsert;
the record is keyed `"{id}.{version}"` with the pre-update version, carries
creation metadata read by indexing the lease-fetched document's
`_last_update`/`_last_author` entries (a document lacking either raises
KeyError and writes no record, so every completed step exhibits them), and
holds the revisable fields of the lease-fetched pre-update state — those
whose stored value is truthy — each passed through the field's revision
encoding.  Starting from an empty revisions collection, `N` sequential
snapshotted updates leave exactly `N` revision records whose version keys
are the `N` consecutive pre-update versions, pairwise distinct. -/
theorem snapshot_revision_records
    (schema : Schema) (fpk : FieldSpec) (author : Val) (N : Nat)
    (now v0 : Int) (mem memN : MemDoc) (st stN : Store)
    (hnames : (schema.map (fun f => f.name)).Nodup)
    (hdb : (schema.map (fun f => f.db_name)).Nodup)
    (hpkf : pkField schema = some fpk)
    (hpkv : fpk.virtual = false)
    (hpkid : ∀ (ov : Option Val) (vsx : Values), fpk.preSave ov vsx = ov)
    (hver : mem.version = some v0)
    (huniq : ∀ p : Val,
      st.docs.countP (fun x => decide (dbGet x "_id" = some p)) ≤ 1)
    (hrev0 : st.revisions = [])
    (hinj : ∀ w1 ∈ intRange v0 N, ∀ w2 ∈ intRange v0 N,
      revisionKey ((getVal mem.values fpk.name).getD Val.null) w1
        = revisionKey ((getVal mem.values fpk.name).getD Val.null) w2 → w1 = w2)
    (hres : saveSeq schema author N now mem st = some (stN, memN)) :
    memN.version = some (v0 + N) ∧
    stN.revisions.length = N ∧
    stN.revisions.map RevisionRec.version = intRange v0 N ∧
    stN.revisions.map RevisionRec.rid
      = (intRange v0 N).map
          (fun w => revisionKey ((getVal mem.values fpk.name).getD Val.null) w) ∧
    (stN.revisions.map RevisionRec.rid).Nodup ∧
    List.Forall₂ (fun w r => ∃ pkDb oldDoc created author,
        r = lockRevision schema ((getVal mem.values fpk.name).getD Val.null)
          pkDb w oldDoc created author ∧
        dbGet oldDoc "_id" = some pkDb ∧
        dbGet oldDoc "_version" = some (Val.vInt w) ∧
        dbGet oldDoc "_last_update" = some created ∧
        dbGet oldDoc "_last_author" = some author ∧
        r.document = revisionSnapshot schema oldDoc)
      (intRange v0 N) stN.revisions ∧
    (∀ (rs : List RevisionRec) (r : RevisionRec),
      upsertRevision (upsertRevision rs r) r = upsertRevision rs r) := by
  have hfresh : ∀ w ∈ intRange v0 N,
      revisionKey ((getVal mem.values fpk.name).getD Val.null) w
        ∉ st.revisions.map RevisionRec.rid := by
    intro w _
    rw [hrev0]
    simp
  obtain ⟨h1, h2, newrecs, hrev, hvers, hrids, hfa⟩ :=
    saveSeq_spec schema fpk author hnames hdb hpkf hpkv hpkid N now v0 mem memN
      st stN hver huniq hfresh hinj hres
  have hrecs : stN.revisions = newrecs := by
    rw [hrev, hrev0, List.nil_append]
  refine ⟨h1, ?_, ?_, ?_, ?_, ?_, fun rs r => upsertRevision_idem rs r⟩
  · have hlen := congrArg List.length hvers
    rw [List.length_map, intRange_length] at hlen
    rw [hrecs]
    exact hlen
  · rw [hrecs]
    exact hvers
  · rw [hrecs]
    exact hrids
  · rw [hrecs, hrids]
    exact List.Nodup.map_on
      (fun w1 hw1 w2 hw2 he => hinj w1 hw1 w2 hw2 he)
      (intRange_nodup N v0)
  · rw [hrecs]
    exact hfa.imp (fun w r ⟨pkDb, oldDoc, c, a, ha, hb, hc, hd, he⟩ =>
      ⟨pkDb, oldDoc, c, a, ha, hb, hc, hd, he, by rw [ha]; rfl⟩)

/-- Witness for C5 (amended) at the concrete example: two sequential
snapshotted saves of the example document leave exactly two revision records
whose version keys are the two pre-update versions 1 and 2, pairwise
distinct. -/
theorem snapshot_revision_records_witness :
    saveSeq exC7Schema Val.null 2 50 exC7Mem exC5WSt
      = some (exC5SeqStore, exC5SeqMem) ∧
    exC5SeqMem.version = some 3 ∧
    exC5SeqStore.revisions.length = 2 ∧
    exC5SeqStore.revisions.map RevisionRec.version = intRange 1 2 ∧
    (exC5SeqStore.revisions.map RevisionRec.rid).Nodup := by
  have h := snapshot_revision_records exC7Schema exPkField Val.null 2 50 1
    exC7Mem exC5SeqMem exC5WSt exC5SeqStore
    (by decide) (by decide) rfl rfl
    (by intro ov vsx; cases ov <;> rfl)
    rfl
    (fun p => le_trans (List.countP_le_length _) (by decide))
    rfl
    (by
      intro w1 h1 w2 h2 he
      simp only [intRange, List.mem_cons, List.not_mem_nil, or_false] at h1 h2
      rcases h1 with rfl | rfl <;> rcases h2 with rfl | rfl
      · rfl
      · exact absurd he (by decide)
      · exact absurd he (by decide)
      · rfl)
    rfl
  exact ⟨rfl, h.1, h.2.1, h.2.2.1, h.2.2.2.2.1⟩

/-- C5 counterexample: a revision snapshot does not contain every revisable
field — a revisable field whose lease-fetched stored value is falsy (here the
integer 0) is omitted from the snapshot written by the update's lock step. -/
theorem revision_snapshot_omits_falsy_field :
    exC5CountField ∈ exC5Schema ∧
    exC5CountField.revisable = true ∧
    exC5CountField.db_name = "count" ∧
    ((saveToDb exC5Schema true true Val.null 50 exC5Mem exC5St).2.leaseFetched.map
        (fun d => dbGet d "count")) = some (some (Val.vInt 0)) ∧
    (saveToDb exC5Schema true true Val.null 50 exC5Mem exC5St).1.revisions.map
        (fun r => dbGet r.document "count") = [none] := by
  refine ⟨List.mem_cons_of_mem exPkField (List.mem_cons_self exC5CountField []),
    rfl, rfl, by decide, by decide⟩

/-! ### Claim C3: Restrict-policy references block the whole delete -/

theorem checkEach_ok_each (recur : String → Val → Except DelErr (List GDoc)) :
    ∀ (ds : List GDoc) (l : List GDoc), checkEach recur ds = Except.ok l →
      ∀ d ∈ ds, ∃ l', recur d.cls (gdPk d) = Except.ok l' := by
  intro ds
  induction ds with
  | nil => intro l _ d hd; exact absurd hd (List.not_mem_nil d)
  | cons x rest ih =>
      intro l hok d hd
      simp only [checkEach] at hok
      cases hx : recur x.cls (gdPk x) with
      | error e => rw [hx] at hok; exact Except.noConfusion hok
      | ok lx =>
          rw [hx] at hok
          rcases List.mem_cons.mp hd with rfl | hd
          · exact ⟨lx, hx⟩
          · cases hre : checkEach recur rest with
            | error e => rw [hre] at hok; exact Except.noConfusion hok
            | ok lr => exact ih lr hre d hd

theorem checkRefs_ok_restrict (recur : String → Val → Except DelErr (List GDoc))
    (st : GStore) (pk : Val) :
    ∀ (rs : List RRef) (l : List GDoc),
      checkRefs recur st pk rs = Except.ok l →
      ∀ r ∈ rs, r.onDelete = Policy.restrict →
        (findRefs st r.refClass r.fieldPath pk).length = 0 := by
  intro rs
  induction rs with
  | nil => intro l _ r hr; exact absurd hr (List.not_mem_nil r)
  | cons x rest ih =>
      intro l hok r hr hres
      simp only [checkRefs] at hok
      rcases List.mem_cons.mp hr with rfl | hr
      · rw [if_pos hres] at hok
        by_cases hlen : (findRefs st r.refClass r.fieldPath pk).length > 0
        · rw [if_pos hlen] at hok
          exact Except.noConfusion hok
        · omega
      · by_cases hx : x.onDelete = Policy.restrict
        · rw [if_pos hx] at hok
          by_cases hlen : (findRefs st x.refClass x.fieldPath pk).length > 0
          · rw [if_pos hlen] at hok
            exact Except.noConfusion hok
          · rw [if_neg hlen] at hok
            exact ih l hok r hr hres
        · rw [if_neg hx] at hok
          cases hce : checkEach recur (findRefs st x.refClass x.fieldPath pk) with
          | error e => rw [hce] at hok; exact Except.noConfusion hok
          | ok c =>
              rw [hce] at hok
              cases hcr : checkRefs recur st pk rest with
              | error e => rw [hcr] at hok; exact Except.noConfusion hok
              | ok l2 => exact ih l2 hcr r hr hres

theorem checkRefs_ok_cascade (recur : String → Val → Except DelErr (List GDoc))
    (st : GStore) (pk : Val) :
    ∀ (rs : List RRef) (l : List GDoc),
      checkRefs recur st pk rs = Except.ok l →
      ∀ r ∈ rs, r.onDelete = Policy.cascade →
        ∀ d ∈ findRefs st r.refClass r.fieldPath pk,
          ∃ l', recur d.cls (gdPk d) = Except.ok l' := by
  intro rs
  induction rs with
  | nil => intro l _ r hr; exact absurd hr (List.not_mem_nil r)
  | cons x rest ih =>
      intro l hok r hr hcas d hd
      simp only [checkRefs] at hok
      rcases List.mem_cons.mp hr with rfl | hr
      · have hx : ¬ r.onDelete = Policy.restrict := by
          rw [hcas]
          exact fun he => Policy.noConfusion he
        rw [if_neg hx] at hok
        cases hce : checkEach recur (findRefs st r.refClass r.fieldPath pk) with
        | error e => rw [hce] at hok; exact Except.noConfusion hok
        | ok c => exact checkEach_ok_each recur _ c hce d hd
      · by_cases hx : x.onDelete = Policy.restrict
        · rw [if_pos hx] at hok
          by_cases hlen : (findRefs st x.refClass x.fieldPath pk).length > 0
          · rw [if_pos hlen] at hok
            exact Except.noConfusion hok
          · rw [if_neg hlen] at hok
            exact ih l hok r hr hcas d hd
        · rw [if_neg hx] at hok
          cases hce : checkEach recur (findRefs st x.refClass x.fieldPath pk) with
          | error e => rw [hce] at hok; exact Except.noConfusion hok
          | ok c =>
              rw [hce] at hok
              cases hcr : checkRefs recur st pk rest with
              | error e => rw [hcr] at hok; exact Except.noConfusion hok
              | ok l2 => exact ih l2 hcr r hr hcas d hd

theorem check_ok_no_violation {reg : RRegistry} {st : GStore} {cls : String}
    {pk : Val} (hviol : Violation reg st cls pk) :
    ∀ (fuel : Nat) (l : List GDoc),
      checkDeleteRestrict fuel reg st cls pk ≠ Except.ok l := by
  induction hviol with
  | @here cls pk r hr hres hne =>
      intro fuel l hok
      cases fuel with
      | zero => exact Except.noConfusion hok
      | succ f =>
          have := checkRefs_ok_restrict (checkDeleteRestrict f reg st) st pk
            (regRefs reg cls) l hok r hr hres
          omega
  | @step cls pk r d hr hcas hd hsub ih =>
      intro fuel l hok
      cases fuel with
      | zero => exact Except.noConfusion hok
      | succ f =>
          obtain ⟨l', hrec⟩ := checkRefs_ok_cascade (checkDeleteRestrict f reg st)
            st pk (regRefs reg cls) l hok r hr hcas d hd
          exact ih f l' hrec

theorem checkEach_ne_mutex (recur : String → Val → Except DelErr (List GDoc))
    (hr : ∀ c p, recur c p ≠ Except.error DelErr.mutexNotAcquired) :
    ∀ ds : List GDoc, checkEach recur ds ≠ Except.error DelErr.mutexNotAcquired := by
  intro ds
  induction ds with
  | nil => intro h; exact Except.noConfusion h
  | cons x rest ih =>
      intro h
      simp only [checkEach] at h
      cases hx : recur x.cls (gdPk x) with
      | error e =>
          rw [hx] at h
          injection h with he
          exact hr x.cls (gdPk x) (by rw [hx, he])
      | ok lx =>
          rw [hx] at h
          cases hre : checkEach recur rest with
          | error e =>
              rw [hre] at h
              injection h with he
              exact ih (by rw [hre, he])
          | ok lr => rw [hre] at h; exact Except.noConfusion h

theorem checkRefs_ne_mutex (recur : String → Val → Except DelErr (List GDoc))
    (hrec : ∀ c p, recur c p ≠ Except.error DelErr.mutexNotAcquired)
    (st : GStore) (pk : Val) :
    ∀ rs : List RRef,
      checkRefs recur st pk rs ≠ Except.error DelErr.mutexNotAcquired := by
  intro rs
  induction rs with
  | nil => intro h; exact Except.noConfusion h
  | cons x rest ih =>
      intro h
      simp only [checkRefs] at h
      by_cases hx : x.onDelete = Policy.restrict
      · rw [if_pos hx] at h
        by_cases hlen : (findRefs st x.refClass x.fieldPath pk).length > 0
        · rw [if_pos hlen] at h
          injection h with he
          exact DelErr.noConfusion he
        · rw [if_neg hlen] at h
          exact ih h
      · rw [if_neg hx] at h
        cases hce : checkEach recur (findRefs st x.refClass x.fieldPath pk) with
        | error e =>
            rw [hce] at h
            injection h with he
            exact checkEach_ne_mutex recur hrec _ (by rw [hce, he])
        | ok c =>
            rw [hce] at h
            cases hcr : checkRefs recur st pk rest with
            | error e =>
                rw [hcr] at h
                injection h with he
                exact ih (by rw [hcr, he])
            | ok l2 => rw [hcr] at h; exact Except.noConfusion h

theorem check_ne_mutex :
    ∀ (fuel : Nat) (reg : RRegistry) (st : GStore) (cls : String) (pk : Val),
      checkDeleteRestrict fuel reg st cls pk
        ≠ Except.error DelErr.mutexNotAcquired := by
  intro fuel
  induction fuel with
  | zero =>
      intro reg st cls pk h
      injection h with he
      exact DelErr.noConfusion he
  | succ f ih =>
      intro reg st cls pk
      exact checkRefs_ne_mutex (checkDeleteRestrict f reg st)
        (fun c p => ih reg st c p) st pk (regRefs reg cls)

/-- C3: when any reverse-reference entry anywhere in the transitive delete
graph has Restrict policy with at least one live referencing document, the
whole-graph pre-check fails with DeleteRestricted before anything is touched,
and `delete` returns the store completely unchanged — no document, revision
or search entry is removed (the recursion-fuel side condition only excludes
the embedding's stand-in for Python's unbounded call stack). -/
theorem delete_restricted_leaves_store_unchanged
    (fuel : Nat) (reg : RRegistry) (rev sea : String → Bool)
    (st : GStore) (cls : String) (pk : Val) (version now : Int)
    (hviol : Violation reg st cls pk)
    (hfuel : checkDeleteRestrict (Nat.succ fuel) reg st cls pk
        ≠ Except.error DelErr.outOfFuel) :
    deleteDoc (Nat.succ fuel) reg rev sea st cls pk version now
      = (st, some DelErr.restricted) := by
  have hclass : checkDeleteRestrict (Nat.succ fuel) reg st cls pk
      = Except.error DelErr.restricted := by
    cases hc : checkDeleteRestrict (Nat.succ fuel) reg st cls pk with
    | ok l => exact absurd hc (check_ok_no_violation hviol (Nat.succ fuel) l)
    | error e =>
        cases e with
        | restricted => rfl
        | outOfFuel => exact absurd hc hfuel
        | mutexNotAcquired =>
            exact absurd hc (check_ne_mutex (Nat.succ fuel) reg st cls pk)
  simp only [deleteDoc, hclass]

/-- Witness for C3 at a concrete two-class store: a `B` document holds a
Restrict-policy reference to the `A` document being deleted, so the delete
fails with DeleteRestricted and the store — documents, revisions and search
entries — is returned unchanged. -/
theorem delete_restricted_leaves_store_unchanged_witness :
    Violation exC3Reg exC3St "A" (Val.vInt 1) ∧
    deleteDoc 1 exC3Reg (fun _ => true) (fun _ => true) exC3St "A" (Val.vInt 1)
        1 50 = (exC3St, some DelErr.restricted) := by
  have hviol : Violation exC3Reg exC3St "A" (Val.vInt 1) :=
    Violation.here (r := ⟨"B", "a_ref", Policy.restrict⟩) (by decide) rfl
      (by decide)
  exact ⟨hviol, delete_restricted_leaves_store_unchanged 0 exC3Reg
    (fun _ => true) (fun _ => true) exC3St "A" (Val.vInt 1) 1 50 hviol
    (fun h => DelErr.noConfusion (Except.error.inj h))⟩

/-! ### Claim C6: stale-source sync is a no-op and the cached version never
regresses -/

/-- C6: syncing a cached reference from a provided source document whose
version is lower than the cache's stored version leaves every cached field
value and the cached version unchanged; and in general the cached version is
only ever advanced to a source version greater than or equal to it. -/
theorem sync_stale_source_is_identity
    (schema : List CRField) (ref : CachedRef) (doc : SrcDoc) (v w : Int)
    (hv : ref.version = some v) (hw : doc.version = some w) (hlt : w < v) :
    (syncRef schema ref doc).1 = ref ∧
    ∀ (schema' : List CRField) (ref' : CachedRef) (doc' : SrcDoc) (u : Int),
      ref'.version = some u →
      ((syncRef schema' ref' doc').1.version = some u ∨
       ∃ z, (syncRef schema' ref' doc').1.version = some z ∧ u ≤ z) := by
  constructor
  · unfold syncRef
    by_cases hid : (match ref.id with
      | some i => decide (doc.pk ≠ i)
      | none => false) = true
    · rw [if_pos hid]
    · rw [if_neg hid, if_pos (by rw [hv]; unfold py2ltVersion; rw [hw]; simpa using hlt)]
  · intro schema' ref' doc' u hu
    unfold syncRef
    by_cases hid : (match ref'.id with
      | some i => decide (doc'.pk ≠ i)
      | none => false) = true
    · rw [if_pos hid]; exact Or.inl hu
    · rw [if_neg hid]
      by_cases hst : (match ref'.version with
        | some v => py2ltVersion doc'.version v
        | none => false) = true
      · rw [if_pos hst]; exact Or.inl hu
      · rw [if_neg hst]
        rw [hu] at hst
        unfold py2ltVersion at hst
        match hdv : doc'.version with
        | none => rw [hdv] at hst; simp at hst
        | some z =>
            rw [hdv] at hst
            simp only [decide_eq_true_eq] at hst
            exact Or.inr ⟨z, by simp [hdv], by omega⟩

/-- Witness for C6 at a concrete cached reference and stale source. -/
theorem sync_stale_source_is_identity_witness :
    (syncRef [CRField.plain "name"]
      { id := some (Val.vInt 7), version := some 5, values := [("name", Val.vStr "Ann")] }
      { pk := Val.vInt 7, version := some 3, fields := [("name", Val.vStr "Annie")] }).1
      = { id := some (Val.vInt 7), version := some 5, values := [("name", Val.vStr "Ann")] } :=
  (sync_stale_source_is_identity [CRField.plain "name"]
    { id := some (Val.vInt 7), version := some 5, values := [("name", Val.vStr "Ann")] }
    { pk := Val.vInt 7, version := some 3, fields := [("name", Val.vStr "Annie")] }
    5 3 rfl rfl (by omega)).1

/-! ### Claim C9: identifier mismatch on sync raises ValueError and leaves
the cache unchanged -/

/-- C9: for a cached reference with a non-null cached id, syncing with a
provided source document whose primary key differs from the cached id raises
`ValueError` and leaves the cached state (fields, id and version)
unchanged. -/
theorem sync_id_mismatch_raises
    (schema : List CRField) (ref : CachedRef) (doc : SrcDoc) (i : Val)
    (hid : ref.id = some i) (hne : doc.pk ≠ i) :
    syncRef schema ref doc = (ref, some SyncErr.valueError) := by
  unfold syncRef
  rw [if_pos (by rw [hid]; simpa using hne)]

/-- Witness for C9 at a concrete mismatched source document. -/
theorem sync_id_mismatch_raises_witness :
    syncRef [CRField.plain "name"]
      { id := some (Val.vInt 7), version := some 5, values := [("name", Val.vStr "Ann")] }
      { pk := Val.vInt 8, version := some 9, fields := [("name", Val.vStr "Bob")] }
      = ({ id := some (Val.vInt 7), version := some 5, values := [("name", Val.vStr "Ann")] },
         some SyncErr.valueError) :=
  sync_id_mismatch_raises [CRField.plain "name"]
    { id := some (Val.vInt 7), version := some 5, values := [("name", Val.vStr "Ann")] }
    { pk := Val.vInt 8, version := some 9, fields := [("name", Val.vStr "Bob")] }
    (Val.vInt 7) rfl (by decide)

/-! ### Claim C10: serial identifier allocation on insert -/

/-- C10: on the insert path a non-null `SerialField` value raises
`ValueError` unless wrapped in `SerialField.ManualValue` (whose integer is
used, leaving the counter untouched), and a null value allocates a fresh
identifier through one atomic increment-and-fetch on the counters
collection. -/
theorem serial_pre_save_insert_behaviour (counter : Option Int) :
    (∀ v : Val, serialPreSave false (some (SerialValue.rawValue v)) counter
        = (counter, Except.error SerialErr.valueError)) ∧
    (∀ pk : Int, serialPreSave false (some (SerialValue.manualValue pk)) counter
        = (counter, Except.ok (some (SerialValue.rawValue (Val.vInt pk))))) ∧
    serialPreSave false none counter
        = (some (counter.getD 0 + 1),
           Except.ok (some (SerialValue.rawValue (Val.vInt (counter.getD 0 + 1))))) := by
  refine ⟨fun v => ?_, fun pk => ?_, ?_⟩ <;> rfl

end Itsy
